import Mathlib

/-!
Verification development for the DCO (Daily Coverage Overview) creator.

The definitions below are a shallow embedding of the pure core of
`src/dco_creator.py`: time parsing and formatting, the per-slot zone
resolver, the split-edit operation on zone blocks, the ADP grid
classifier loop and the day projector.  Text is modelled as `List Char`,
Python `None`-able values as `Option`, and the heterogeneous spreadsheet
cell values as the inductive `Cell`.  Python's in-place list sort inside
`extract_day_schedule` is made explicit: the Lean function returns both
the projected day schedule and the post-call state of the employee
records.
-/

set_option maxRecDepth 4000

abbrev Chars := List Char

/-- `\d` character class of the CPython `re` module, ASCII digits. -/
def isDigitC (c : Char) : Bool := 48 ≤ c.toNat && c.toNat ≤ 57

/-- `\s` character class (and the default `str.strip` set): space, tab,
newline, carriage return, vertical tab, form feed. -/
def isSpaceC (c : Char) : Bool :=
  c.toNat = 32 || c.toNat = 9 || c.toNat = 10 || c.toNat = 13 ||
  c.toNat = 11 || c.toNat = 12

/-- Numeric value of one ASCII digit character. -/
def digitVal (c : Char) : Nat := c.toNat - 48

/-- Python `int` applied to a run of ASCII digit characters. -/
def natOfDigits (ds : Chars) : Nat := ds.foldl (fun a c => a * 10 + digitVal c) 0

/-- Consume exactly `n` digit characters, returning them and the rest. -/
def takeDigitsN : Nat → Chars → Option (Chars × Chars)
  | 0, cs => some ([], cs)
  | _ + 1, [] => none
  | n + 1, c :: cs =>
    if isDigitC c then (takeDigitsN n cs).map (fun p => (c :: p.1, p.2)) else none

/-- Maximal-munch `\s*`. -/
def dropSpaces (cs : Chars) : Chars := cs.dropWhile isSpaceC

/-- Python `str.strip()`: remove leading and trailing whitespace. -/
def stripEnds (cs : Chars) : Chars :=
  ((cs.dropWhile isSpaceC).reverse.dropWhile isSpaceC).reverse

/-- Python `str.split(":")`. -/
def splitOnColon : Chars → List Chars
  | [] => [[]]
  | c :: cs =>
    if c = ':' then [] :: splitOnColon cs
    else
      match splitOnColon cs with
      | p :: ps => (c :: p) :: ps
      | [] => [[c]]

/-- First alternative that fully succeeds, in order: the backtracking
discipline of a regex alternation / bounded quantifier. -/
def firstSome {α β : Type} (f : α → Option β) : List α → Option β
  | [] => none
  | x :: xs =>
    match f x with
    | some y => some y
    | none => firstSome f xs

/-!
## `parse_time_range` (src/dco_creator.py lines 78-108)

The source applies, to the stripped text, the anchored (prefix) pattern
`(\d{1,2}(?::\d{2})?)\s*(AM|PM)\s*[-–]\s*(\d{1,2}(?::\d{2})?)\s*(AM|PM)`
with `re.IGNORECASE`, then converts each captured time with `_parse_hm`.
The pattern is embedded with its backtracking choice points explicit:
the `\d{1,2}` quantifier and the optional `(?::\d{2})?` group yield the
four candidate captures of `timeTokAlts`, tried in the engine's greedy
order.  Case-insensitive matching of the literal `AM`/`PM` is the
per-character case test of `matchAMPM`.
-/

/-- One candidate for `\d{1,2}(?::\d{2})?`: take `n` digits, then (when
`colon` is set) a `:` and exactly two more digits.  Returns the captured
group text and the remaining input. -/
def altTok (n : Nat) (colon : Bool) (cs : Chars) : Option (Chars × Chars) :=
  (takeDigitsN n cs).bind fun dr =>
    if colon then
      if dr.2.head? = some ':' then
        (takeDigitsN 2 dr.2.tail).map (fun mr => (dr.1 ++ ':' :: mr.1, mr.2))
      else none
    else some (dr.1, dr.2)

/-- All candidates for `\d{1,2}(?::\d{2})?` in greedy backtracking order:
two digits with minutes, two digits, one digit with minutes, one digit. -/
def timeTokAlts (cs : Chars) : List (Chars × Chars) :=
  (altTok 2 true cs).toList ++ (altTok 2 false cs).toList ++
  (altTok 1 true cs).toList ++ (altTok 1 false cs).toList

/-- Case-insensitive `(AM|PM)`: two characters, the first `A`/`P`, the
second `M`, any case.  Captures the two matched characters. -/
def matchAMPM : Chars → Option ((Char × Char) × Chars)
  | c0 :: c1 :: r =>
    if (c0 = 'A' || c0 = 'a' || c0 = 'P' || c0 = 'p') && (c1 = 'M' || c1 = 'm') then
      some ((c0, c1), r)
    else none
  | _ => none

/-- The part of the pattern after the separator:
`(\d{1,2}(?::\d{2})?)\s*(AM|PM)`, returning groups 3 and 4. -/
def matchAfterSep (cs : Chars) : Option (Chars × (Char × Char)) :=
  firstSome (fun gr => (matchAMPM (dropSpaces gr.2)).map (fun x => (gr.1, x.1)))
    (timeTokAlts cs)

/-- The full anchored pattern; returns the four captured groups
(first time text, first meridiem chars, second time text, second
meridiem chars).  Trailing input is ignored, as with `re.match`. -/
def matchTR (cs : Chars) : Option (Chars × (Char × Char) × Chars × (Char × Char)) :=
  firstSome
    (fun gr =>
      (matchAMPM (dropSpaces gr.2)).bind fun m1 =>
        if (dropSpaces m1.2).head? = some '-' || (dropSpaces m1.2).head? = some '–' then
          (matchAfterSep (dropSpaces (dropSpaces m1.2).tail)).map fun g34 =>
            (gr.1, m1.1, g34.1, g34.2)
        else none)
    (timeTokAlts cs)

/-- `ampm.upper() == "PM"` for a two-character meridiem capture. -/
def merIsPM (a0 a1 : Char) : Bool := (a0 = 'P' || a0 = 'p') && (a1 = 'M' || a1 = 'm')

/-- `ampm.upper() == "AM"` for a two-character meridiem capture. -/
def merIsAM (a0 a1 : Char) : Bool := (a0 = 'A' || a0 = 'a') && (a1 = 'M' || a1 = 'm')

/-- `_parse_hm`: parse `'10:00'` or `'10'` with an AM/PM marker into
`(hour, minute)`.  `a0 a1` are the two captured meridiem characters;
`ampm.upper() == "PM"` is the case-insensitive character comparison. -/
def _parse_hm (timeStr : Chars) (a0 a1 : Char) : Nat × Nat :=
  let hm :=
    if timeStr.contains ':' then
      let parts := splitOnColon timeStr
      (natOfDigits (parts.getD 0 []), natOfDigits (parts.getD 1 []))
    else (natOfDigits timeStr, 0)
  let hour := if merIsPM a0 a1 && hm.1 ≠ 12 then hm.1 + 12 else hm.1
  let hour := if merIsAM a0 a1 && hour = 12 then 0 else hour
  (hour, hm.2)

/-- A spreadsheet cell value as produced by the grid reader: text,
calendar date (opaque payload), number, or empty. -/
inductive Cell : Type
  | str (s : Chars)
  | date (d : Nat)
  | num (n : Int)
  | empty
deriving DecidableEq

/-- Python truthiness of a cell value: empty string, zero and `None`
are falsy; dates are truthy. -/
def Cell.truthy : Cell → Bool
  | .str s => !s.isEmpty
  | .date _ => true
  | .num n => n ≠ 0
  | .empty => false

/-- Decimal rendering of a natural number (Python `str`). -/
def natToChars (n : Nat) : Chars := Nat.toDigits 10 n

/-- Python `str` of an `int`. -/
def intStr (n : Int) : Chars :=
  if n < 0 then '-' :: natToChars n.natAbs else natToChars n.natAbs

/-- Python `str` of a cell value.  `str(datetime)` is all digits and
punctuation ("YYYY-MM-DD HH:MM:SS"); its payload is abstracted to an
opaque digit rendering, which like the real rendering contains no
meridiem letters. -/
def Cell.pyStr : Cell → Chars
  | .str s => s
  | .date d => natToChars d
  | .num n => intStr n
  | .empty => 'N' :: 'o' :: 'n' :: 'e' :: []

/-- `parse_time_range`: `None` unless the argument is a truthy string
whose stripped text begins with the time-range pattern; on a match,
the two `_parse_hm` conversions (always truthy tuples in the source,
so the final `if start and end` always passes). -/
def parse_time_range (v : Cell) : Option ((Nat × Nat) × (Nat × Nat)) :=
  match v with
  | .str s =>
    if s = [] then none
    else
      (matchTR (stripEnds s)).map fun g =>
        (_parse_hm g.1 g.2.1.1 g.2.1.2, _parse_hm g.2.2.1 g.2.2.2.1 g.2.2.2.2)
  | _ => none

/-!
## `format_time_short` and `_parse_compact_time`
(src/dco_creator.py lines 111-123 and 1750-1784)
-/

/-- Two-digit zero-padded rendering (`f"{minute:02d}"`). -/
def pad2 (n : Nat) : Chars := if n < 10 then '0' :: natToChars n else natToChars n

/-- `format_time_short`: compact label such as `9A`, `930A`, `12P`. -/
def format_time_short (hour minute : Nat) : Chars :=
  let dh : Nat × Char :=
    if hour = 0 then (12, 'A')
    else if hour < 12 then (hour, 'A')
    else if hour = 12 then (12, 'P')
    else (hour - 12, 'P')
  if minute = 0 then natToChars dh.1 ++ [dh.2]
  else natToChars dh.1 ++ pad2 minute ++ [dh.2]

/-- ASCII `str.upper()`. -/
def upperC (c : Char) : Char :=
  if 97 ≤ c.toNat && c.toNat ≤ 122 then Char.ofNat (c.toNat - 32) else c

/-- `(AM|PM|A|P)` (equally `(A|P|AM|PM)`) against uppercased text:
the alternation succeeds exactly when the next character is `A` or `P`,
and only `group[0]` — that character — is ever used by the source. -/
def merTok : Chars → Option Char
  | [] => none
  | c :: _ => if c = 'A' || c = 'P' then some c else none

/-- The two meridiem adjustments of `_parse_compact_time`, applied in
source order to an `(hour, minute)` pair. -/
def applyMer (h m : Nat) (ap : Char) : Nat × Nat :=
  let h1 := if ap = 'P' && h ≠ 12 then h + 12 else h
  let h2 := if ap = 'A' && h1 = 12 then 0 else h1
  (h2, m)

/-- One digit-count candidate for `(\d{1,2}):(\d{2})\s*(AM|PM|A|P)`. -/
def tryColonHM (n : Nat) (cs : Chars) : Option (Nat × Nat) :=
  (takeDigitsN n cs).bind fun dr =>
    match dr.2 with
    | ':' :: r =>
      (takeDigitsN 2 r).bind fun mr =>
        (merTok (dropSpaces mr.2)).map fun ap =>
          applyMer (natOfDigits dr.1) (natOfDigits mr.1) ap
    | _ => none

/-- First `_parse_compact_time` pattern, greedy in the hour digits. -/
def pat1 (cs : Chars) : Option (Nat × Nat) := tryColonHM 2 cs <|> tryColonHM 1 cs

/-- One digit-count candidate for `(\d{1,4})\s*(A|P|AM|PM)`, with the
digit-run length deciding the hour/minute split. -/
def tryCompact (n : Nat) (cs : Chars) : Option (Nat × Nat) :=
  (takeDigitsN n cs).bind fun dr =>
    (merTok (dropSpaces dr.2)).map fun ap =>
      let ns := dr.1
      let hm : Nat × Nat :=
        if ns.length ≤ 2 then (natOfDigits ns, 0)
        else if ns.length = 3 then (natOfDigits (ns.take 1), natOfDigits (ns.drop 1))
        else (natOfDigits (ns.take 2), natOfDigits (ns.drop 2))
      applyMer hm.1 hm.2 ap

/-- Second `_parse_compact_time` pattern, greedy in the digit run. -/
def pat2 (cs : Chars) : Option (Nat × Nat) :=
  tryCompact 4 cs <|> tryCompact 3 cs <|> tryCompact 2 cs <|> tryCompact 1 cs

/-- `_parse_compact_time`: compact times such as `9A`, `930A`,
`12:30 PM`.  The text is stripped, uppercased and its dots removed,
then the two anchored patterns are tried in order. -/
def _parse_compact_time (text : Chars) : Option (Nat × Nat) :=
  if text = [] then none
  else
    let t := ((stripEnds text).map upperC).filter (fun c => !(c = '.'))
    pat1 t <|> pat2 t

/-!
## `_get_zone_for_slot` (src/dco_creator.py lines 139-181)
-/

/-- Minutes since midnight of an `(hour, minute)` pair. -/
def minsOf (p : Nat × Nat) : Nat := p.1 * 60 + p.2

/-- An explicit zone segment `{"start": .., "end": .., "zone": ..}`.
The source dict keys `start`/`end` become `startT`/`endT` (`end` is a
Lean keyword). -/
structure ZSeg where
  startT : Nat × Nat
  endT : Nat × Nat
  zone : String
deriving DecidableEq

/-- A day-schedule employee record as built by `extract_day_schedule`
or the edit dialog; `shift_start`/`shift_end` are `None`-able. -/
structure Emp where
  name : Chars
  job : Chars
  shift_text : Chars
  shift_segments : List ((Nat × Nat) × (Nat × Nat))
  shift_start : Option (Nat × Nat)
  shift_end : Option (Nat × Nat)
  break_text : Chars
  zone : String
  zone_segments : List ZSeg
deriving DecidableEq

/-- The first zone segment whose half-open interval contains the slot
(first loop of the multi-zone branch). -/
def findContaining (segs : List ZSeg) (t : Nat) : Option String :=
  firstSome
    (fun seg => if minsOf seg.startT ≤ t && t < minsOf seg.endT then some seg.zone else none)
    segs

/-- The `best` accumulator loop: the zone of the last listed segment
whose end is at or before the slot. -/
def lastPreceding (segs : List ZSeg) (t : Nat) : Option String :=
  segs.foldl (fun best seg => if minsOf seg.endT ≤ t then some seg.zone else best) none

/-- `_get_zone_for_slot`: zone name for a slot, or `""`.  Multi-zone
mode when `zone_segments` is non-empty, else the single-zone mode over
`[shift_start, shift_end)`.  The Python truthiness tests on
`shift_start`/`shift_end` (tuples, always truthy) are `Option` presence
tests, and `if best:` is the `some`-and-non-empty test. -/
def _get_zone_for_slot (emp : Emp) (slot_h slot_m : Nat) : String :=
  let slot_min := slot_h * 60 + slot_m
  if emp.zone_segments.isEmpty then
    match emp.shift_start, emp.shift_end with
    | some ss, some se =>
      if minsOf ss ≤ slot_min && slot_min < minsOf se then emp.zone else ""
    | _, _ => ""
  else
    match findContaining emp.zone_segments slot_min with
    | some z => z
    | none =>
      match emp.shift_start, emp.shift_end with
      | some ss, some se =>
        if minsOf ss ≤ slot_min && slot_min < minsOf se then
          match lastPreceding emp.zone_segments slot_min with
          | some b => if b = "" then "" else b
          | none => ""
        else ""
      | _, _ => ""

/-!
## `SplitZoneDialog._add_split` (src/dco_creator.py lines 1536-1568)
-/

/-- One shift/zone block of the split dialog. -/
structure Block where
  startT : Nat × Nat
  endT : Nat × Nat
  zone : String
deriving DecidableEq

/-- The two user-facing rejection reasons of `_add_split`:
"… is already a block boundary." and
"That time falls in a break gap, not a shift block.". -/
inductive SplitErr : Type
  | boundary
  | gap
deriving DecidableEq

/-- Second loop of `_add_split`: replace the first block strictly
containing the split time by the two sub-blocks. -/
def splitBlocks (st : Nat × Nat) (t : Nat) : List Block → Option (List Block)
  | [] => none
  | b :: bs =>
    if minsOf b.startT < t && t < minsOf b.endT then
      some ({ startT := b.startT, endT := st, zone := b.zone } ::
            { startT := st, endT := b.endT, zone := "" } :: bs)
    else (splitBlocks st t bs).map (b :: ·)

/-- `_add_split` on the dialog's block list: reject when the slider
time is an existing boundary, otherwise split the containing block,
otherwise report that the time is in a break gap.  The block list is
returned only on success; an error leaves it untouched. -/
def _add_split (blocks : List Block) (split_min : Nat) : Except SplitErr (List Block) :=
  let split_time : Nat × Nat := (split_min / 60, split_min % 60)
  if blocks.any (fun b => b.startT = split_time || b.endT = split_time) then
    .error .boundary
  else
    match splitBlocks split_time split_min blocks with
    | some l => .ok l
    | none => .error .gap

/-!
## `parse_adp_report` (src/dco_creator.py lines 188-324)

The grid scan is embedded as a structural recursion over the row list:
the `while` loop advances one row per iteration except for the
`"Employee"` header, which also consumes the following date row.  The
`current_employee` reference is always the most recently appended
record, so continuation rows update the last element of the employee
list.  The `time_period` scan is independent of the classification loop
and of every claim, and is not modelled.
-/

/-- A day column entry `{"abbrev": .., "date": ..}` (the source key
`abbrev` is a Lean keyword, hence `abbrevT`). -/
structure DayInfo where
  abbrevT : Chars
  date : Option Nat
deriving DecidableEq

/-- An employee record accumulated by the classifier. -/
structure PEmp where
  name : Chars
  job : Chars
  department : Chars
  shifts_by_day : List (Nat × List ((Nat × Nat) × (Nat × Nat)))
deriving DecidableEq

/-- The seven day abbreviations. -/
def DAY_ABBREVS : List Chars :=
  ["Sun".toList, "Mon".toList, "Tue".toList, "Wed".toList,
   "Thu".toList, "Fri".toList, "Sat".toList]

/-- `cell_a = row[0] if row[0] else ""`. -/
def cellA (row : List Cell) : Cell :=
  if (row.getD 0 Cell.empty).truthy then row.getD 0 Cell.empty else Cell.str []

/-- `dict.setdefault(col, []).append(tr)` on an insertion-ordered
mapping from column index to time-range list: append to the existing
entry, or add a new entry at the end. -/
def addShift (shifts : List (Nat × List ((Nat × Nat) × (Nat × Nat)))) (c : Nat)
    (tr : (Nat × Nat) × (Nat × Nat)) :
    List (Nat × List ((Nat × Nat) × (Nat × Nat))) :=
  if shifts.any (fun e => e.1 = c) then
    shifts.map (fun e => if e.1 = c then (e.1, e.2 ++ [tr]) else e)
  else shifts ++ [(c, [tr])]

/-- The per-day-column shift collection shared by the employee-row and
continuation-row branches: for each known day column, in insertion
order, try `parse_time_range(str(val) if val else "")` on that column's
cell and record a success. -/
def collectRow (dayCols : List (Nat × DayInfo)) (row : List Cell)
    (shifts : List (Nat × List ((Nat × Nat) × (Nat × Nat)))) :
    List (Nat × List ((Nat × Nat) × (Nat × Nat))) :=
  dayCols.foldl
    (fun acc e =>
      if e.1 < row.length then
        match parse_time_range
            (Cell.str (if (row.getD e.1 Cell.empty).truthy
                       then (row.getD e.1 Cell.empty).pyStr else [])) with
        | some tr => addShift acc e.1 tr
        | none => acc
      else acc)
    shifts

/-- `row[6] if len(row) > 6 and row[6] else ""`, then
`str(job).strip() if job else ""`. -/
def jobOf (row : List Cell) : Chars :=
  let job := if 6 < row.length && (row.getD 6 Cell.empty).truthy
             then row.getD 6 Cell.empty else Cell.str []
  if job.truthy then stripEnds job.pyStr else []

/-- Day-column scan of an `"Employee"` header row against its date row:
record each header cell holding a day abbreviation, with the date-row
cell when it is a calendar date. -/
def scanDayColumns (headerRow dateRow : List Cell) : List (Nat × DayInfo) :=
  (List.range headerRow.length).filterMap fun c =>
    match headerRow.getD c Cell.empty with
    | Cell.str s =>
      if s ∈ DAY_ABBREVS then
        some (c, { abbrevT := s,
                   date := match dateRow.getD c Cell.empty with
                           | Cell.date d => if c < dateRow.length then some d else none
                           | _ => none })
      else none
    | _ => none

/-- Update the most recently appended employee (the loop's
`current_employee` alias), when one exists. -/
def updateLast (f : PEmp → PEmp) : List PEmp → List PEmp
  | [] => []
  | [e] => [f e]
  | e :: es => e :: updateLast f es

/-- The freshly created employee record of the employee-row branch:
name from column A (stripped), job from column index 6, department
from the carried `current_dept`, and this row's parsed shifts. -/
def mkNewEmp (dept : Chars) (dayCols : List (Nat × DayInfo)) (row : List Cell)
    (s : Chars) : PEmp where
  name := stripEnds s
  job := jobOf row
  department := dept
  shifts_by_day := collectRow dayCols row []

/-- Python `str.split("/")`. -/
def splitOnSlash : Chars → List Chars
  | [] => [[]]
  | c :: cs =>
    if c = '/' then [] :: splitOnSlash cs
    else
      match splitOnSlash cs with
      | p :: ps => (c :: p) :: ps
      | [] => [[c]]

/-- The classifier loop of `parse_adp_report`, carrying
`current_dept`, `day_columns` and the employee list (whose last element
is `current_employee`).  Returns the final day-column map and employee
list. -/
def parseLoop (dept : Chars) (dayCols : List (Nat × DayInfo)) (emps : List PEmp) :
    List (List Cell) → List (Nat × DayInfo) × List PEmp
  | [] => (dayCols, emps)
  | row :: rest =>
    match cellA row with
    | Cell.str s =>
      if ("Under Armour/").toList.isPrefixOf s then
        parseLoop (((splitOnSlash s).getLastD s)) dayCols emps rest
      else if s = ("Employee").toList then
        match rest with
        | dateRow :: rest2 => parseLoop dept (scanDayColumns row dateRow) emps rest2
        | [] => parseLoop dept [] emps []
      else if !s.isEmpty && s.contains ',' && !(("Under").toList.isPrefixOf s) then
        parseLoop dept dayCols (emps ++ [mkNewEmp dept dayCols row s]) rest
      else if !emps.isEmpty && s.isEmpty then
        parseLoop dept dayCols
          (updateLast (fun e => { e with shifts_by_day := collectRow dayCols row e.shifts_by_day }) emps)
          rest
      else parseLoop dept dayCols emps rest
    | _ =>
      -- a truthy non-string cell in column A: no branch matches
      -- (`isinstance` fails, `== "Employee"` fails, and `not cell_a`
      -- fails, so the continuation branch is also skipped)
      parseLoop dept dayCols emps rest

/-- `parse_adp_report` on an in-memory grid (the `time_period` scan and
workbook I/O are outside the model): final `days` map and employee
list, starting from an empty department and no day columns. -/
def parse_adp_report (grid : List (List Cell)) : List (Nat × DayInfo) × List PEmp :=
  parseLoop [] [] [] grid

/-!
## `extract_day_schedule` (src/dco_creator.py lines 327-372)

`segments.sort(key=...)` sorts the model's own list object in place;
the embedding returns, next to the projected day schedule, the employee
list as it stands after the call, with the target day's entry replaced
by its sorted version.  Python's stable sort is modelled by a stable
insertion sort on the same key.
-/

/-- The sort key `s[0][0] * 60 + s[0][1]` (start in minutes). -/
def segKey (s : (Nat × Nat) × (Nat × Nat)) : Nat := s.1.1 * 60 + s.1.2

/-- Comparison by the sort key. -/
def segLE (a b : (Nat × Nat) × (Nat × Nat)) : Prop := segKey a ≤ segKey b

instance : DecidableRel segLE := fun a b => Nat.decLe (segKey a) (segKey b)

instance : IsTotal ((Nat × Nat) × (Nat × Nat)) segLE := ⟨fun x y => Nat.le_total (segKey x) (segKey y)⟩

instance : IsTrans ((Nat × Nat) × (Nat × Nat)) segLE := ⟨fun _ _ _ => Nat.le_trans⟩

/-- Stable sort by start time: `list.sort(key=...)` is a stable sort
on this key, as is insertion sort. -/
def sortSegs (l : List ((Nat × Nat) × (Nat × Nat))) : List ((Nat × Nat) × (Nat × Nat)) :=
  List.insertionSort segLE l

/-- `emp["shifts_by_day"].get(target_col, [])`. -/
def lookupShifts (shifts : List (Nat × List ((Nat × Nat) × (Nat × Nat)))) (c : Nat) :
    List ((Nat × Nat) × (Nat × Nat)) :=
  ((shifts.find? (fun e => e.1 = c)).map (·.2)).getD []

/-- The in-place sort seen from outside: the entry the `.get` returned
(the first with the target key; keys are unique in a Python dict) now
holds the sorted list. -/
def setShifts : List (Nat × List ((Nat × Nat) × (Nat × Nat))) → Nat →
    List ((Nat × Nat) × (Nat × Nat)) → List (Nat × List ((Nat × Nat) × (Nat × Nat)))
  | [], _, _ => []
  | e :: es, c, v => if e.1 = c then (e.1, v) :: es else e :: setShifts es c v

/-- `" / ".join(...)`. -/
def joinSlash : List Chars → Chars
  | [] => []
  | [p] => p
  | p :: ps => p ++ (" / ").toList ++ joinSlash ps

/-- One `"start-end"` shift-text part. -/
def shiftPart (s : (Nat × Nat) × (Nat × Nat)) : Chars :=
  format_time_short s.1.1 s.1.2 ++ '-' :: format_time_short s.2.1 s.2.2

/-- The GUI-ready employee dict built for one source record and its
sorted segment list. -/
def mkDayEmp (e : PEmp) (sorted : List ((Nat × Nat) × (Nat × Nat))) : Emp :=
  { name := e.name
    job := e.job
    shift_text := joinSlash (sorted.map shiftPart)
    shift_segments := sorted
    shift_start := some (sorted.headD ((0, 0), (0, 0))).1
    shift_end := some (sorted.getLastD ((0, 0), (0, 0))).2
    break_text := if 2 ≤ sorted.length
                  then format_time_short (sorted.headD ((0, 0), (0, 0))).2.1
                         (sorted.headD ((0, 0), (0, 0))).2.2
                  else []
    zone := ""
    zone_segments := [] }

/-- `extract_day_schedule`: the projected day schedule (first
component) and the employee records as left behind by the in-place
sorts (second component).  An employee with no entry (or an empty one)
for the target day is skipped and untouched; otherwise the sorted
segments feed the output record and replace the day's list in the
model. -/
def extract_day_schedule : List PEmp → Nat → List Emp × List PEmp
  | [], _ => ([], [])
  | e :: es, target =>
    if (lookupShifts e.shifts_by_day target).isEmpty then
      ((extract_day_schedule es target).1, e :: (extract_day_schedule es target).2)
    else
      (mkDayEmp e (sortSegs (lookupShifts e.shifts_by_day target)) ::
         (extract_day_schedule es target).1,
       { e with shifts_by_day := setShifts e.shifts_by_day target
                  (sortSegs (lookupShifts e.shifts_by_day target)) } ::
         (extract_day_schedule es target).2)

/-- The state of one employee record after `extract_day_schedule` has
sorted its target-day list in place (a no-op for records the loop
skips). -/
def sortedEmp (e : PEmp) (target : Nat) : PEmp :=
  { e with shifts_by_day := setShifts e.shifts_by_day target
             (sortSegs (lookupShifts e.shifts_by_day target)) }

/-!
## Specification-side shape of the time-range pattern

The claim about `parse_time_range` says the parser succeeds exactly on
texts of the shape `<time> <AM|PM> [-\u2013] <time> <AM|PM>`.  `TRShape` is
that shape spelled out: the digit tokens, optional `:MM` minute tokens,
whitespace runs, meridiem letter pairs and the separator, plus the
trailing text that `re.match` leaves unread.  `TRShape.render` maps a
shape back to text; the claim is then that `parse_time_range` accepts
exactly the strings whose stripped text renders from a well-formed
shape.
-/

/-- Decomposition of a text matching the time-range pattern. -/
structure TRShape where
  d1 : Chars
  m1 : Option Chars
  w1 : Chars
  a1 : Char
  b1 : Char
  w2 : Chars
  sep : Char
  w3 : Chars
  d2 : Chars
  m2 : Option Chars
  w4 : Chars
  a2 : Char
  b2 : Char
  rest : Chars
deriving DecidableEq

/-- `H` or `HH`: one or two digit characters. -/
def goodDigits (ds : Chars) : Bool :=
  (ds.length = 1 || ds.length = 2) && ds.all isDigitC

/-- An optional `:MM` minute token: exactly two digits when present. -/
def goodMM : Option Chars → Bool
  | none => true
  | some mm => mm.length = 2 && mm.all isDigitC

/-- A meridiem `AM`/`PM` in any case, as its two characters. -/
def goodMer (a b : Char) : Bool :=
  (a = 'A' || a = 'a' || a = 'P' || a = 'p') && (b = 'M' || b = 'm')

/-- The text of one `<time>` token: digits, optionally `:` and minutes. -/
def timeChars (d : Chars) (m : Option Chars) : Chars :=
  d ++ (match m with | some mm => ':' :: mm | none => [])

/-- Minute value of an optional minute token (0 when absent). -/
def mmVal : Option Chars → Nat
  | none => 0
  | some mm => natOfDigits mm

/-- The meridiem adjustment steps of `_parse_hm`, applied to an
already-split hour and minute value. -/
def hmAdjust (h mn : Nat) (a b : Char) : Nat × Nat :=
  let h1 := if merIsPM a b && h ≠ 12 then h + 12 else h
  let h2 := if merIsAM a b && h1 = 12 then 0 else h1
  (h2, mn)

/-- Well-formedness of a decomposition. -/
def TRShape.ok (t : TRShape) : Bool :=
  goodDigits t.d1 && goodMM t.m1 && t.w1.all isSpaceC && goodMer t.a1 t.b1 &&
  t.w2.all isSpaceC && (t.sep = '-' || t.sep = '\u2013') && t.w3.all isSpaceC &&
  goodDigits t.d2 && goodMM t.m2 && t.w4.all isSpaceC && goodMer t.a2 t.b2

/-- The text of a decomposition. -/
def TRShape.render (t : TRShape) : Chars :=
  timeChars t.d1 t.m1 ++ (t.w1 ++ (t.a1 :: t.b1 :: (t.w2 ++ (t.sep :: (t.w3 ++
    (timeChars t.d2 t.m2 ++ (t.w4 ++ (t.a2 :: t.b2 :: t.rest))))))))

/-- The shape of `"12 AM - 12 PM"`. -/
def exShape : TRShape where
  d1 := ('1' :: '2' :: [])
  m1 := none
  w1 := (' ' :: [])
  a1 := 'A'
  b1 := 'M'
  w2 := (' ' :: [])
  sep := '-'
  w3 := (' ' :: [])
  d2 := ('1' :: '2' :: [])
  m2 := none
  w4 := (' ' :: [])
  a2 := 'P'
  b2 := 'M'
  rest := []

/-!
## Concrete instances used in statements and witnesses
-/

/-- Zone segment 9:00–12:00 "A" of the specification example. -/
def exSegA : ZSeg := { startT := (9, 0), endT := (12, 0), zone := "A" }

/-- Zone segment 13:00–17:00 "B" of the specification example. -/
def exSegB : ZSeg := { startT := (13, 0), endT := (17, 0), zone := "B" }

/-- The split-mode example employee: shift 9:00–17:00 with the two
explicit zone segments. -/
def exEmpSplit : Emp where
  name := []
  job := []
  shift_text := []
  shift_segments := [((9, 0), (12, 0)), ((13, 0), (17, 0))]
  shift_start := some (9, 0)
  shift_end := some (17, 0)
  break_text := []
  zone := ""
  zone_segments := [exSegA, exSegB]

/-- The single-zone example employee: same shift, assigned zone "A",
no zone segments. -/
def exEmpSingle : Emp := { exEmpSplit with zone := "A", zone_segments := [] }

/-- A single 9:00–12:00 block with zone "A" for the split-dialog
witness. -/
def exBlock : Block := { startT := (9, 0), endT := (12, 0), zone := "A" }

/-- An employee record whose Monday (column 3) segment list is stored
out of order. -/
def exPEmpUnsorted : PEmp where
  name := ('S' :: 'J' :: [])
  job := []
  department := []
  shifts_by_day := [(3, [((13, 0), (17, 0)), ((9, 0), (12, 0))])]

/-- The same record with the Monday list already sorted. -/
def exPEmpSorted : PEmp where
  name := ('S' :: 'J' :: [])
  job := []
  department := []
  shifts_by_day := [(3, [((9, 0), (12, 0)), ((13, 0), (17, 0))])]

/-!
# Theorems

Generic helper lemmas first, then one main theorem per claim with its
witness or counterexample.
-/

theorem firstSome_eq_none {α β : Type} {f : α → Option β} {l : List α}
    (h : ∀ x ∈ l, f x = none) : firstSome f l = none := by
  induction l with
  | nil => rfl
  | cons x xs ih =>
    have hx := h x (List.mem_cons_self x xs)
    simp only [firstSome, hx]
    exact ih (fun y hy => h y (List.mem_cons_of_mem x hy))

theorem firstSome_exists {α β : Type} {f : α → Option β} {l : List α} {y : β}
    (h : firstSome f l = some y) : ∃ x ∈ l, f x = some y := by
  induction l with
  | nil => simp [firstSome] at h
  | cons x xs ih =>
    simp only [firstSome] at h
    cases hx : f x with
    | some z =>
      rw [hx] at h
      exact ⟨x, List.mem_cons_self x xs, hx.trans h⟩
    | none =>
      rw [hx] at h
      obtain ⟨w, hw, hfw⟩ := ih h
      exact ⟨w, List.mem_cons_of_mem x hw, hfw⟩

theorem firstSome_cons_some {α β : Type} {f : α → Option β} {x : α} {l : List α} {y : β}
    (h : f x = some y) : firstSome f (x :: l) = some y := by
  simp only [firstSome, h]

theorem firstSome_cons_none {α β : Type} {f : α → Option β} {x : α} {l : List α}
    (h : f x = none) : firstSome f (x :: l) = firstSome f l := by
  simp only [firstSome, h]

theorem getLast?_cons_elim {α : Type} (a : α) (l : List α) :
    (a :: l).getLast? = (l.getLast?).elim (some a) some := by
  induction l generalizing a with
  | nil => rfl
  | cons b r ih =>
    rw [List.getLast?_cons_cons, ih b]
    cases hr : r.getLast? with
    | none => simp [ih b, hr]
    | some z => simp [ih b, hr]

theorem findContaining_of_exists {segs : List ZSeg} {t : Nat}
    (h : ∃ seg ∈ segs, minsOf seg.startT ≤ t ∧ t < minsOf seg.endT) :
    ∃ seg ∈ segs, (minsOf seg.startT ≤ t ∧ t < minsOf seg.endT) ∧
      findContaining segs t = some seg.zone := by
  induction segs with
  | nil => obtain ⟨seg, hmem, _⟩ := h; exact absurd hmem (List.not_mem_nil seg)
  | cons s rest ih =>
    by_cases hs : minsOf s.startT ≤ t ∧ t < minsOf s.endT
    · refine ⟨s, List.mem_cons_self s rest, hs, ?_⟩
      unfold findContaining
      apply firstSome_cons_some
      simp [hs.1, hs.2]
    · obtain ⟨seg, hmem, hc⟩ := h
      rcases List.mem_cons.mp hmem with rfl | hmem2
      · exact absurd hc hs
      · obtain ⟨seg2, hm2, hc2, heq⟩ := ih ⟨seg, hmem2, hc⟩
        refine ⟨seg2, List.mem_cons_of_mem s hm2, hc2, ?_⟩
        unfold findContaining at heq ⊢
        rw [firstSome_cons_none _]
        · exact heq
        · simp only [ite_eq_right_iff]
          intro hb
          rw [Bool.and_eq_true, decide_eq_true_eq, decide_eq_true_eq] at hb
          exact absurd hb hs

theorem findContaining_of_forall {segs : List ZSeg} {t : Nat}
    (h : ∀ seg ∈ segs, ¬(minsOf seg.startT ≤ t ∧ t < minsOf seg.endT)) :
    findContaining segs t = none := by
  apply firstSome_eq_none
  intro seg hmem
  have := h seg hmem
  simp only [ite_eq_right_iff]
  intro hb
  rw [Bool.and_eq_true, decide_eq_true_eq, decide_eq_true_eq] at hb
  exact absurd hb this

theorem lastPreceding_aux (segs : List ZSeg) (t : Nat) (acc : Option String) :
    segs.foldl (fun best seg => if minsOf seg.endT ≤ t then some seg.zone else best) acc =
      (((segs.filter (fun seg => minsOf seg.endT ≤ t)).map ZSeg.zone).getLast?).elim acc some := by
  induction segs generalizing acc with
  | nil => rfl
  | cons s rest ih =>
    rw [List.foldl_cons, List.filter_cons]
    by_cases hs : minsOf s.endT ≤ t
    · rw [if_pos hs, if_pos (by simpa using hs), List.map_cons, ih (some s.zone),
        getLast?_cons_elim]
      cases h : ((rest.filter (fun seg => minsOf seg.endT ≤ t)).map ZSeg.zone).getLast? <;>
        simp [h]
    · rw [if_neg hs, if_neg (by simpa using hs)]
      exact ih acc

theorem lastPreceding_eq (segs : List ZSeg) (t : Nat) :
    lastPreceding segs t =
      ((segs.filter (fun seg => minsOf seg.endT ≤ t)).map ZSeg.zone).getLast? := by
  unfold lastPreceding
  rw [lastPreceding_aux]
  cases h : ((segs.filter (fun seg => minsOf seg.endT ≤ t)).map ZSeg.zone).getLast? <;> simp [h]

/-- C1: split mode of the zone slot resolver.  For an employee with a
non-empty `zone_segments` list and a set shift range: (i) when some
segment's half-open interval contains the slot, the result is the zone
of such a segment; (ii) when no segment contains the slot but the slot
lies in `[shiftStart, shiftEnd)`, the result is the zone of the last
segment in list order whose end is ≤ the slot (empty when there is no
such segment); (iii) when no segment contains the slot and no segment
ends at or before it, the result is empty (this covers a slot before
the first segment, e.g. 8:30 in the specification example). -/
theorem c1_split_mode (emp : Emp) (slot_h slot_m : Nat) (ss se : Nat × Nat)
    (hne : emp.zone_segments ≠ [])
    (hss : emp.shift_start = some ss) (hse : emp.shift_end = some se) :
    ((∃ seg ∈ emp.zone_segments,
        minsOf seg.startT ≤ slot_h * 60 + slot_m ∧ slot_h * 60 + slot_m < minsOf seg.endT) →
      ∃ seg ∈ emp.zone_segments,
        (minsOf seg.startT ≤ slot_h * 60 + slot_m ∧ slot_h * 60 + slot_m < minsOf seg.endT) ∧
        _get_zone_for_slot emp slot_h slot_m = seg.zone)
    ∧ ((∀ seg ∈ emp.zone_segments,
          ¬(minsOf seg.startT ≤ slot_h * 60 + slot_m ∧ slot_h * 60 + slot_m < minsOf seg.endT)) →
       minsOf ss ≤ slot_h * 60 + slot_m → slot_h * 60 + slot_m < minsOf se →
       _get_zone_for_slot emp slot_h slot_m =
         (((emp.zone_segments.filter
              (fun seg => minsOf seg.endT ≤ slot_h * 60 + slot_m)).map ZSeg.zone).getLast?).getD "")
    ∧ ((∀ seg ∈ emp.zone_segments,
          ¬(minsOf seg.startT ≤ slot_h * 60 + slot_m ∧ slot_h * 60 + slot_m < minsOf seg.endT)) →
       (∀ seg ∈ emp.zone_segments, ¬(minsOf seg.endT ≤ slot_h * 60 + slot_m)) →
       _get_zone_for_slot emp slot_h slot_m = "") := by
  have hbody : _get_zone_for_slot emp slot_h slot_m =
      (match findContaining emp.zone_segments (slot_h * 60 + slot_m) with
       | some z => z
       | none =>
         if minsOf ss ≤ slot_h * 60 + slot_m && slot_h * 60 + slot_m < minsOf se then
           match lastPreceding emp.zone_segments (slot_h * 60 + slot_m) with
           | some b => if b = "" then "" else b
           | none => ""
         else "") := by
    unfold _get_zone_for_slot
    rw [hss, hse, if_neg (by simp [List.isEmpty_eq_false.mpr hne])]
  refine ⟨?_, ?_, ?_⟩
  · intro hex
    obtain ⟨seg, hmem, hc, heq⟩ := findContaining_of_exists hex
    exact ⟨seg, hmem, hc, by rw [hbody, heq]⟩
  · intro hnone hle hlt
    rw [hbody, findContaining_of_forall hnone, lastPreceding_eq]
    rw [if_pos (by simp [hle, hlt])]
    cases hlast : ((emp.zone_segments.filter
        (fun seg => minsOf seg.endT ≤ slot_h * 60 + slot_m)).map ZSeg.zone).getLast? with
    | none => rfl
    | some b =>
      by_cases hb : b = "" <;> simp [hb]
  · intro hnone hnoprec
    rw [hbody, findContaining_of_forall hnone]
    have hlp : lastPreceding emp.zone_segments (slot_h * 60 + slot_m) = none := by
      rw [lastPreceding_eq]
      have : emp.zone_segments.filter
          (fun seg => minsOf seg.endT ≤ slot_h * 60 + slot_m) = [] := by
        rw [List.filter_eq_nil_iff]
        intro seg hmem
        simpa using hnoprec seg hmem
      rw [this]; rfl
    by_cases hr : minsOf ss ≤ slot_h * 60 + slot_m && slot_h * 60 + slot_m < minsOf se
    · rw [if_pos hr, hlp]
    · rw [if_neg hr]

/-- Witness for C1 at the specification example: segments
`[(9:00–12:00,"A"), (13:00–17:00,"B")]` with shift 9:00–17:00 give
"A" at 12:30 (break inherits the preceding zone), "B" at 13:00, and
"" at 8:30. -/
theorem c1_split_mode_witness :
    _get_zone_for_slot exEmpSplit 12 30 = "A" ∧
    _get_zone_for_slot exEmpSplit 13 0 = "B" ∧
    _get_zone_for_slot exEmpSplit 8 30 = "" := by
  have h1230 := c1_split_mode exEmpSplit 12 30 (9, 0) (17, 0) (by decide) rfl rfl
  have h1300 := c1_split_mode exEmpSplit 13 0 (9, 0) (17, 0) (by decide) rfl rfl
  have h0830 := c1_split_mode exEmpSplit 8 30 (9, 0) (17, 0) (by decide) rfl rfl
  refine ⟨?_, ?_, ?_⟩
  · rw [h1230.2.1 (by decide) (by decide) (by decide)]; decide
  · obtain ⟨seg, hmem, hc, heq⟩ := h1300.1 ⟨exSegB, by decide, by decide⟩
    rw [heq]
    have : seg = exSegA ∨ seg = exSegB := by
      simpa [exEmpSplit] using hmem
    rcases this with rfl | rfl
    · exact absurd hc (by decide)
    · rfl
  · exact h0830.2.2 (by decide) (by decide)

/-- C2: single-zone mode of the zone slot resolver.  For an employee
with an empty `zone_segments` list and a set shift range, the result is
the employee's assigned zone exactly on the half-open range
`[shiftStart, shiftEnd)` — gap slots included, since this mode never
looks at the shift segments — and empty outside it. -/
theorem c2_single_zone_mode (emp : Emp) (slot_h slot_m : Nat) (ss se : Nat × Nat)
    (hsegs : emp.zone_segments = [])
    (hss : emp.shift_start = some ss) (hse : emp.shift_end = some se) :
    _get_zone_for_slot emp slot_h slot_m =
      if minsOf ss ≤ slot_h * 60 + slot_m ∧ slot_h * 60 + slot_m < minsOf se
      then emp.zone else "" := by
  have hbody : _get_zone_for_slot emp slot_h slot_m =
      if (decide (minsOf ss ≤ slot_h * 60 + slot_m) &&
          decide (slot_h * 60 + slot_m < minsOf se)) = true
      then emp.zone else "" := by
    unfold _get_zone_for_slot
    rw [hss, hse, if_pos (by simp [hsegs])]
  rw [hbody]
  by_cases h : minsOf ss ≤ slot_h * 60 + slot_m ∧ slot_h * 60 + slot_m < minsOf se
  · rw [if_pos (show (decide (minsOf ss ≤ slot_h * 60 + slot_m) &&
        decide (slot_h * 60 + slot_m < minsOf se)) = true by simp [h.1, h.2]), if_pos h]
  · rw [if_neg (show ¬((decide (minsOf ss ≤ slot_h * 60 + slot_m) &&
        decide (slot_h * 60 + slot_m < minsOf se)) = true) by
          simp only [Bool.and_eq_true, decide_eq_true_eq]; exact h), if_neg h]

/-- Witness for C2: the single-zone example employee (shift 9:00–17:00,
zone "A", segments 9–12 and 13–17 but no zone segments) gets "A" at the
12:30 break slot and "" at 8:30. -/
theorem c2_single_zone_mode_witness :
    _get_zone_for_slot exEmpSingle 12 30 = "A" ∧
    _get_zone_for_slot exEmpSingle 8 30 = "" := by
  have ha := c2_single_zone_mode exEmpSingle 12 30 (9, 0) (17, 0) rfl rfl rfl
  have hb := c2_single_zone_mode exEmpSingle 8 30 (9, 0) (17, 0) rfl rfl rfl
  rw [ha, hb]
  refine ⟨?_, ?_⟩
  · rw [if_pos (by decide)]; rfl
  · rw [if_neg (by decide)]

theorem splitBlocks_of_forall {blocks : List Block} {st : Nat × Nat} {t : Nat}
    (h : ∀ b ∈ blocks, ¬(minsOf b.startT < t ∧ t < minsOf b.endT)) :
    splitBlocks st t blocks = none := by
  induction blocks with
  | nil => rfl
  | cons b bs ih =>
    unfold splitBlocks
    rw [if_neg (show ¬((decide (minsOf b.startT < t) && decide (t < minsOf b.endT)) = true) by
      simp only [Bool.and_eq_true, decide_eq_true_eq]
      exact h b (List.mem_cons_self b bs))]
    rw [ih (fun x hx => h x (List.mem_cons_of_mem b hx))]
    rfl

theorem splitBlocks_first {l₁ : List Block} {b : Block} {l₂ : List Block}
    {st : Nat × Nat} {t : Nat}
    (hb : minsOf b.startT < t ∧ t < minsOf b.endT)
    (hl₁ : ∀ b' ∈ l₁, ¬(minsOf b'.startT < t ∧ t < minsOf b'.endT)) :
    splitBlocks st t (l₁ ++ b :: l₂) =
      some (l₁ ++ { startT := b.startT, endT := st, zone := b.zone } ::
                  { startT := st, endT := b.endT, zone := "" } :: l₂) := by
  induction l₁ with
  | nil =>
    rw [List.nil_append, List.nil_append]
    unfold splitBlocks
    rw [if_pos (by simp [hb.1, hb.2])]
  | cons x xs ih =>
    have hx := hl₁ x (List.mem_cons_self x xs)
    rw [List.cons_append, List.cons_append]
    unfold splitBlocks
    rw [if_neg (show ¬((decide (minsOf x.startT < t) && decide (t < minsOf x.endT)) = true) by
      simp only [Bool.and_eq_true, decide_eq_true_eq]; exact hx)]
    rw [ih (fun y hy => hl₁ y (List.mem_cons_of_mem x hy))]
    rfl

/-- C7: `_add_split` is atomic.  With `st` the slider time as an
`(hour, minute)` pair: (a) when `st` equals a boundary of any block the
operation reports the boundary reason and (being `Except.error`) leaves
the block list unchanged; (b) when `st` is no boundary and no block
strictly contains the time, it reports the break-gap reason; (c)
otherwise the first (in a well-formed dialog, the only) block strictly
containing the time is replaced by two blocks meeting at `st`, the
first inheriting the block's zone, the second with an empty zone. -/
theorem c7_add_split_atomic (blocks : List Block) (t : Nat) :
    ((∃ b ∈ blocks, b.startT = (t / 60, t % 60) ∨ b.endT = (t / 60, t % 60)) →
      _add_split blocks t = .error .boundary)
    ∧ ((∀ b ∈ blocks, ¬(b.startT = (t / 60, t % 60) ∨ b.endT = (t / 60, t % 60))) →
       (∀ b ∈ blocks, ¬(minsOf b.startT < t ∧ t < minsOf b.endT)) →
       _add_split blocks t = .error .gap)
    ∧ (∀ l₁ b l₂, blocks = l₁ ++ b :: l₂ →
       (∀ b' ∈ blocks, ¬(b'.startT = (t / 60, t % 60) ∨ b'.endT = (t / 60, t % 60))) →
       (minsOf b.startT < t ∧ t < minsOf b.endT) →
       (∀ b' ∈ l₁, ¬(minsOf b'.startT < t ∧ t < minsOf b'.endT)) →
       _add_split blocks t =
         .ok (l₁ ++ { startT := b.startT, endT := (t / 60, t % 60), zone := b.zone } ::
                    { startT := (t / 60, t % 60), endT := b.endT, zone := "" } :: l₂)) := by
  refine ⟨?_, ?_, ?_⟩
  · intro hex
    unfold _add_split
    rw [if_pos]
    rw [List.any_eq_true]
    obtain ⟨b, hmem, hor⟩ := hex
    refine ⟨b, hmem, ?_⟩
    rcases hor with h | h <;> simp [h]
  · intro hnb hnc
    unfold _add_split
    rw [if_neg (show ¬(blocks.any
        (fun b => b.startT = (t / 60, t % 60) || b.endT = (t / 60, t % 60)) = true) by
      rw [List.any_eq_true]
      rintro ⟨b, hmem, hor⟩
      rcases Bool.or_eq_true_iff.mp hor with h | h
      · exact hnb b hmem (Or.inl (by simpa using h))
      · exact hnb b hmem (Or.inr (by simpa using h)))]
    rw [splitBlocks_of_forall hnc]
  · intro l₁ b l₂ hsplit hnb hc hfirst
    unfold _add_split
    rw [if_neg (show ¬(blocks.any
        (fun b => b.startT = (t / 60, t % 60) || b.endT = (t / 60, t % 60)) = true) by
      rw [List.any_eq_true]
      rintro ⟨x, hmem, hor⟩
      rcases Bool.or_eq_true_iff.mp hor with h | h
      · exact hnb x hmem (Or.inl (by simpa using h))
      · exact hnb x hmem (Or.inr (by simpa using h)))]
    rw [hsplit, splitBlocks_first hc hfirst]

/-- Witness for C7: splitting the single block 9:00–12:00 "A" at 10:30
yields 9:00–10:30 "A" and 10:30–12:00 "", while 9:00 (a boundary) and
12:30 (outside every block) are rejected with their reasons. -/
theorem c7_add_split_atomic_witness :
    _add_split [exBlock] 630 =
      .ok [{ startT := (9, 0), endT := (10, 30), zone := "A" },
           { startT := (10, 30), endT := (12, 0), zone := "" }] ∧
    _add_split [exBlock] 540 = .error .boundary ∧
    _add_split [exBlock] 750 = .error .gap := by
  refine ⟨?_, ?_, ?_⟩
  · exact (c7_add_split_atomic [exBlock] 630).2.2 [] exBlock [] rfl
      (by decide) (by decide) (by decide)
  · exact (c7_add_split_atomic [exBlock] 540).1 ⟨exBlock, by decide, by decide⟩
  · exact (c7_add_split_atomic [exBlock] 750).2.1 (by decide) (by decide)

/-- C10: `parse_time_range` does no range validation on minute fields
beyond their two-digit shape: `"9:75 AM - 5:00 PM"` parses successfully
to the non-normalised range ((9,75),(17,0)) even though 75 is not a
valid clock minute. -/
theorem c10_no_minute_validation :
    parse_time_range (Cell.str ("9:75 AM - 5:00 PM").toList) = some ((9, 75), (17, 0)) ∧
    ¬(75 < 60) := by
  exact ⟨by decide, by decide⟩

/-- C3: compact round-trip.  For every valid half-hour time point
(hour ≤ 23, minute 0 or 30), `_parse_compact_time` inverts
`format_time_short`; the edge encodings are as specified: hour 0
renders as "12A", hour 12 as "12P", minute 0 omits the minutes
("9A"), and "930A"/"1130P" carry them. -/
theorem c3_compact_round_trip (h m : Nat) (hh : h < 24) (hm : m = 0 ∨ m = 30) :
    _parse_compact_time (format_time_short h m) = some (h, m) ∧
    format_time_short 0 0 = ('1' :: '2' :: 'A' :: []) ∧
    format_time_short 12 0 = ('1' :: '2' :: 'P' :: []) ∧
    format_time_short 9 0 = ('9' :: 'A' :: []) ∧
    format_time_short 9 30 = ('9' :: '3' :: '0' :: 'A' :: []) ∧
    format_time_short 23 30 = ('1' :: '1' :: '3' :: '0' :: 'P' :: []) := by
  have key : ∀ h' < 24, _parse_compact_time (format_time_short h' 0) = some (h', 0) ∧
      _parse_compact_time (format_time_short h' 30) = some (h', 30) := by decide
  refine ⟨?_, by decide, by decide, by decide, by decide, by decide⟩
  rcases hm with rfl | rfl
  · exact (key h hh).1
  · exact (key h hh).2

/-- Witness for C3 at 23:30 ("1130P"). -/
theorem c3_compact_round_trip_witness :
    _parse_compact_time (format_time_short 23 30) = some (23, 30) :=
  (c3_compact_round_trip 23 30 (by decide) (Or.inr rfl)).1

theorem sortSegs_idem (l : List ((Nat × Nat) × (Nat × Nat))) :
    sortSegs (sortSegs l) = sortSegs l :=
  List.Sorted.insertionSort_eq (List.sorted_insertionSort segLE l)

theorem sortSegs_eq_nil_iff (l : List ((Nat × Nat) × (Nat × Nat))) :
    sortSegs l = [] ↔ l = [] := by
  constructor
  · intro h
    have hlen := List.length_insertionSort segLE l
    rw [show List.insertionSort segLE l = sortSegs l from rfl, h] at hlen
    exact List.length_eq_zero.mp hlen.symm
  · rintro rfl; rfl

theorem lookupShifts_cons_of_pos {e : Nat × List ((Nat × Nat) × (Nat × Nat))}
    {es : List (Nat × List ((Nat × Nat) × (Nat × Nat)))} {c : Nat} (hc : e.1 = c) :
    lookupShifts (e :: es) c = e.2 := by
  unfold lookupShifts
  rw [List.find?_cons_of_pos _ (by simpa using hc)]
  rfl

theorem lookupShifts_cons_of_neg {e : Nat × List ((Nat × Nat) × (Nat × Nat))}
    {es : List (Nat × List ((Nat × Nat) × (Nat × Nat)))} {c : Nat} (hc : ¬e.1 = c) :
    lookupShifts (e :: es) c = lookupShifts es c := by
  unfold lookupShifts
  rw [List.find?_cons_of_neg _ (by simpa using hc)]

theorem setShifts_cons_of_pos {e : Nat × List ((Nat × Nat) × (Nat × Nat))}
    {es : List (Nat × List ((Nat × Nat) × (Nat × Nat)))} {c : Nat}
    {v : List ((Nat × Nat) × (Nat × Nat))} (hc : e.1 = c) :
    setShifts (e :: es) c v = (e.1, v) :: es := by
  simp only [setShifts, if_pos hc]

theorem setShifts_cons_of_neg {e : Nat × List ((Nat × Nat) × (Nat × Nat))}
    {es : List (Nat × List ((Nat × Nat) × (Nat × Nat)))} {c : Nat}
    {v : List ((Nat × Nat) × (Nat × Nat))} (hc : ¬e.1 = c) :
    setShifts (e :: es) c v = e :: setShifts es c v := by
  simp only [setShifts, if_neg hc]

theorem lookupShifts_setShifts {s : List (Nat × List ((Nat × Nat) × (Nat × Nat)))}
    {c : Nat} (v : List ((Nat × Nat) × (Nat × Nat)))
    (h : lookupShifts s c ≠ []) : lookupShifts (setShifts s c v) c = v := by
  induction s with
  | nil => exact absurd rfl h
  | cons e es ih =>
    by_cases hc : e.1 = c
    · rw [setShifts_cons_of_pos hc,
        lookupShifts_cons_of_pos (show ((e.1, v) : Nat × List ((Nat × Nat) × (Nat × Nat))).1 = c from hc)]
    · rw [setShifts_cons_of_neg hc, lookupShifts_cons_of_neg hc]
      exact ih (by rwa [lookupShifts_cons_of_neg hc] at h)

theorem setShifts_lookup_self {s : List (Nat × List ((Nat × Nat) × (Nat × Nat)))}
    {c : Nat} (h : lookupShifts s c ≠ []) : setShifts s c (lookupShifts s c) = s := by
  induction s with
  | nil => exact absurd rfl h
  | cons e es ih =>
    by_cases hc : e.1 = c
    · rw [lookupShifts_cons_of_pos hc, setShifts_cons_of_pos hc]
    · rw [lookupShifts_cons_of_neg hc, setShifts_cons_of_neg hc,
        ih (by rwa [lookupShifts_cons_of_neg hc] at h)]

theorem setShifts_setShifts {s : List (Nat × List ((Nat × Nat) × (Nat × Nat)))}
    {c : Nat} (v w : List ((Nat × Nat) × (Nat × Nat))) :
    setShifts (setShifts s c v) c w = setShifts s c w := by
  induction s with
  | nil => rfl
  | cons e es ih =>
    by_cases hc : e.1 = c
    · rw [setShifts_cons_of_pos hc, setShifts_cons_of_pos hc,
        setShifts_cons_of_pos (show ((e.1, v) : Nat × List ((Nat × Nat) × (Nat × Nat))).1 = c from hc)]
    · rw [setShifts_cons_of_neg hc, setShifts_cons_of_neg hc, setShifts_cons_of_neg hc, ih]

theorem extract_cons_of_empty {e : PEmp} {es : List PEmp} {target : Nat}
    (h : lookupShifts e.shifts_by_day target = []) :
    extract_day_schedule (e :: es) target =
      ((extract_day_schedule es target).1, e :: (extract_day_schedule es target).2) := by
  simp only [extract_day_schedule, List.isEmpty_iff, h, if_true]

theorem extract_cons_of_nonempty {e : PEmp} {es : List PEmp} {target : Nat}
    (h : lookupShifts e.shifts_by_day target ≠ []) :
    extract_day_schedule (e :: es) target =
      (mkDayEmp e (sortSegs (lookupShifts e.shifts_by_day target)) ::
         (extract_day_schedule es target).1,
       sortedEmp e target :: (extract_day_schedule es target).2) := by
  rw [show extract_day_schedule (e :: es) target =
        (if (lookupShifts e.shifts_by_day target).isEmpty then
          ((extract_day_schedule es target).1, e :: (extract_day_schedule es target).2)
        else
          (mkDayEmp e (sortSegs (lookupShifts e.shifts_by_day target)) ::
             (extract_day_schedule es target).1,
           { e with shifts_by_day := setShifts e.shifts_by_day target
                      (sortSegs (lookupShifts e.shifts_by_day target)) } ::
             (extract_day_schedule es target).2)) from by
      simp only [extract_day_schedule]]
  rw [if_neg (by simp [h])]
  rfl


theorem mkDayEmp_sortedEmp (e : PEmp) (target : Nat)
    (l : List ((Nat × Nat) × (Nat × Nat))) :
    mkDayEmp (sortedEmp e target) l = mkDayEmp e l := rfl

theorem sortedEmp_idem (e : PEmp) (target : Nat)
    (hseg : lookupShifts e.shifts_by_day target ≠ []) :
    sortedEmp (sortedEmp e target) target = sortedEmp e target := by
  have hinner : setShifts (setShifts e.shifts_by_day target
        (sortSegs (lookupShifts e.shifts_by_day target))) target
      (sortSegs (lookupShifts (setShifts e.shifts_by_day target
        (sortSegs (lookupShifts e.shifts_by_day target))) target)) =
      setShifts e.shifts_by_day target (sortSegs (lookupShifts e.shifts_by_day target)) := by
    rw [lookupShifts_setShifts _ hseg, sortSegs_idem, setShifts_setShifts]
  exact congrArg (fun v => PEmp.mk e.name e.job e.department v) hinner

/-- C9: projection is idempotent.  Running `extract_day_schedule` a
second time, on the employee records as the first call left them,
produces the identical day-schedule list (and leaves the records
unchanged): the in-place sort of the first call is invisible the
second time because sorting an already sorted list is the identity. -/
theorem c9_projection_idempotent (emps : List PEmp) (target : Nat) :
    (extract_day_schedule (extract_day_schedule emps target).2 target).1 =
      (extract_day_schedule emps target).1 ∧
    (extract_day_schedule (extract_day_schedule emps target).2 target).2 =
      (extract_day_schedule emps target).2 := by
  induction emps with
  | nil => exact ⟨rfl, rfl⟩
  | cons e es ih =>
    by_cases hseg : lookupShifts e.shifts_by_day target = []
    · rw [extract_cons_of_empty hseg]
      show (extract_day_schedule (e :: (extract_day_schedule es target).2) target).1 =
          (extract_day_schedule es target).1 ∧
        (extract_day_schedule (e :: (extract_day_schedule es target).2) target).2 =
          e :: (extract_day_schedule es target).2
      rw [extract_cons_of_empty hseg]
      exact ⟨ih.1, congrArg (List.cons e) ih.2⟩
    · have hS : sortSegs (lookupShifts e.shifts_by_day target) ≠ [] :=
        fun h => hseg ((sortSegs_eq_nil_iff _).mp h)
      have hlook : lookupShifts (sortedEmp e target).shifts_by_day target =
          sortSegs (lookupShifts e.shifts_by_day target) :=
        lookupShifts_setShifts _ hseg
      have hlook2 : lookupShifts (sortedEmp e target).shifts_by_day target ≠ [] := by
        rw [hlook]; exact hS
      rw [extract_cons_of_nonempty hseg]
      show (extract_day_schedule
          (sortedEmp e target :: (extract_day_schedule es target).2) target).1 = _ ∧
        (extract_day_schedule
          (sortedEmp e target :: (extract_day_schedule es target).2) target).2 = _
      rw [extract_cons_of_nonempty hlook2]
      constructor
      · show mkDayEmp (sortedEmp e target)
            (sortSegs (lookupShifts (sortedEmp e target).shifts_by_day target)) ::
            (extract_day_schedule (extract_day_schedule es target).2 target).1 = _
        rw [hlook, sortSegs_idem, ih.1, mkDayEmp_sortedEmp]
      · show sortedEmp (sortedEmp e target) target ::
            (extract_day_schedule (extract_day_schedule es target).2 target).2 = _
        rw [ih.2, sortedEmp_idem e target hseg]

theorem sortedEmp_eq_self {e : PEmp} {target : Nat}
    (hseg : lookupShifts e.shifts_by_day target ≠ [])
    (hs : List.Sorted segLE (lookupShifts e.shifts_by_day target)) :
    sortedEmp e target = e := by
  have h1 : sortSegs (lookupShifts e.shifts_by_day target) =
      lookupShifts e.shifts_by_day target := List.Sorted.insertionSort_eq hs
  have h2 : setShifts e.shifts_by_day target
      (sortSegs (lookupShifts e.shifts_by_day target)) = e.shifts_by_day := by
    rw [h1, setShifts_lookup_self hseg]
  exact congrArg (fun v => PEmp.mk e.name e.job e.department v) h2

/-- C8 (amended): `extract_day_schedule` is not free of effects on its
input — `segments.sort(...)` sorts the model's own lists — but the
mutation is exactly the in-place sort: afterwards each employee record
is unchanged except that a non-empty target-day list has been replaced
by its sorted permutation, and when every target-day list was already
sorted by start time, the records are exactly unchanged. -/
theorem c8_extract_sorts_in_place (emps : List PEmp) (target : Nat) :
    (extract_day_schedule emps target).2 =
      emps.map (fun e => if lookupShifts e.shifts_by_day target = []
                         then e else sortedEmp e target) ∧
    ((∀ e ∈ emps, List.Sorted segLE (lookupShifts e.shifts_by_day target)) →
      (extract_day_schedule emps target).2 = emps) := by
  have hmap : (extract_day_schedule emps target).2 =
      emps.map (fun e => if lookupShifts e.shifts_by_day target = []
                         then e else sortedEmp e target) := by
    induction emps with
    | nil => rfl
    | cons e es ih =>
      by_cases hseg : lookupShifts e.shifts_by_day target = []
      · rw [extract_cons_of_empty hseg, List.map_cons, if_pos hseg]
        show e :: (extract_day_schedule es target).2 = e :: _
        rw [ih]
      · rw [extract_cons_of_nonempty hseg, List.map_cons, if_neg hseg]
        show sortedEmp e target :: (extract_day_schedule es target).2 =
          sortedEmp e target :: _
        rw [ih]
  refine ⟨hmap, fun hsorted => ?_⟩
  rw [hmap]
  have : ∀ e ∈ emps,
      (if lookupShifts e.shifts_by_day target = [] then e else sortedEmp e target) = e := by
    intro e hmem
    by_cases hseg : lookupShifts e.shifts_by_day target = []
    · rw [if_pos hseg]
    · rw [if_neg hseg, sortedEmp_eq_self hseg (hsorted e hmem)]
  calc emps.map (fun e => if lookupShifts e.shifts_by_day target = []
                          then e else sortedEmp e target)
      = emps.map id := List.map_congr_left this
    _ = emps := List.map_id emps

/-- Counterexample for C8 as stated: for a model holding the segments
of one day out of order, the employee records after
`extract_day_schedule` differ from the input — the call has sorted the
day's list in place. -/
theorem c8_counterexample :
    (extract_day_schedule [exPEmpUnsorted] 3).2 ≠ [exPEmpUnsorted] := by decide

/-- Witness for C8 (amended): with the Monday list already sorted the
records really are unchanged, and the unsorted record is mapped to its
sorted version. -/
theorem c8_extract_sorts_in_place_witness :
    (extract_day_schedule [exPEmpSorted] 3).2 = [exPEmpSorted] ∧
    (extract_day_schedule [exPEmpUnsorted] 3).2 =
      [exPEmpUnsorted].map (fun e => if lookupShifts e.shifts_by_day 3 = []
                                     then e else sortedEmp e 3) := by
  constructor
  · exact (c8_extract_sorts_in_place [exPEmpSorted] 3).2 (by decide)
  · exact (c8_extract_sorts_in_place [exPEmpUnsorted] 3).1

theorem isPrefixOf_append_left {a b l : Chars} (h : (a ++ b).isPrefixOf l = true) :
    a.isPrefixOf l = true := by
  rw [List.isPrefixOf_iff_prefix] at h ⊢
  exact (List.prefix_append a b).trans h

/-- C5 (amended): the employee-row branch fires for a row whose column
A is a non-empty string containing a comma and **not starting with
"Under"** — the code's exclusion prefix is the bare `"Under"`, strictly
broader than the department-header prefix `"Under Armour/"` — and then
appends exactly one new record with name from column A, job from column
index 6 and department from the carried current department. -/
theorem c5_employee_row_appends (dept : Chars) (dayCols : List (Nat × DayInfo))
    (emps : List PEmp) (row : List Cell) (rest : List (List Cell)) (s : Chars)
    (hs : cellA row = Cell.str s) (hne : s ≠ [])
    (hcomma : s.contains ',' = true)
    (hu : ("Under").toList.isPrefixOf s = false) :
    parseLoop dept dayCols emps (row :: rest) =
      parseLoop dept dayCols (emps ++ [mkNewEmp dept dayCols row s]) rest := by
  have h1 : ("Under Armour/").toList.isPrefixOf s = false := by
    cases hua : ("Under Armour/").toList.isPrefixOf s with
    | false => rfl
    | true =>
      have happ : ("Under").toList ++ (" Armour/").toList = ("Under Armour/").toList := by
        decide
      rw [← happ] at hua
      rw [isPrefixOf_append_left hua] at hu
      exact absurd hu (by simp)
  have hemp : ¬(s = ("Employee").toList) := by
    intro heq
    rw [heq] at hcomma
    exact absurd hcomma (by decide)
  have hcond : (!s.isEmpty && s.contains ',' && !(("Under").toList.isPrefixOf s)) = true := by
    rw [List.isEmpty_eq_false.mpr hne, hcomma, hu]
    rfl
  cases rest with
  | nil =>
    simp only [parseLoop, hs, h1, Bool.false_eq_true, if_false, if_neg hemp, hcond, if_true]
  | cons dateRow rest2 =>
    simp only [parseLoop, hs, h1, Bool.false_eq_true, if_false, if_neg hemp, hcond, if_true]

/-- Counterexample for C5 as stated: the row "Underwood, C" satisfies
every condition of the claim — non-empty, contains a comma, does not
match the department-header prefix "Under Armour/" — yet the classifier
produces no employee record at all, because the code's exclusion tests
the broader prefix "Under". -/
theorem c5_counterexample :
    ("Underwood, C").toList ≠ [] ∧
    (("Underwood, C").toList).contains ',' = true ∧
    ("Under Armour/").toList.isPrefixOf (("Underwood, C").toList) = false ∧
    (parse_adp_report [[Cell.str ("Underwood, C").toList]]).2 = [] := by
  refine ⟨by decide, by decide, by decide, ?_⟩
  decide

/-- Witness for C5 (amended): classifying the single row "Smith, Jane"
(job cell "Cashier" at index 6) appends exactly that record. -/
theorem c5_employee_row_appends_witness :
    parseLoop [] [] [] [[Cell.str ("Smith, Jane").toList, Cell.empty, Cell.empty,
        Cell.empty, Cell.empty, Cell.empty, Cell.str ("Cashier").toList]] =
      parseLoop [] [] [mkNewEmp [] [] [Cell.str ("Smith, Jane").toList, Cell.empty,
        Cell.empty, Cell.empty, Cell.empty, Cell.empty, Cell.str ("Cashier").toList]
        ("Smith, Jane").toList] [] := by
  exact c5_employee_row_appends [] [] [] _ [] (("Smith, Jane").toList)
    (by decide) (by decide) (by decide) (by decide)

theorem takeDigitsN_sound {n : Nat} {cs ds r : Chars}
    (h : takeDigitsN n cs = some (ds, r)) :
    cs = ds ++ r ∧ ds.length = n ∧ ds.all isDigitC = true := by
  induction n generalizing cs ds r with
  | zero =>
    simp only [takeDigitsN, Option.some.injEq, Prod.mk.injEq] at h
    rw [← h.1, ← h.2]
    exact ⟨rfl, rfl, rfl⟩
  | succ k ih =>
    match cs with
    | [] => simp [takeDigitsN] at h
    | c :: cs' =>
      simp only [takeDigitsN] at h
      by_cases hc : isDigitC c
      · rw [if_pos hc] at h
        cases htd : takeDigitsN k cs' with
        | none => rw [htd] at h; simp at h
        | some p =>
          obtain ⟨p1, p2⟩ := p
          rw [htd] at h
          simp only [Option.map_some', Option.some.injEq, Prod.mk.injEq] at h
          obtain ⟨h1, h2⟩ := h
          obtain ⟨ha, hb, hall⟩ := ih htd
          rw [← h1, ← h2]
          refine ⟨by rw [List.cons_append, ← ha], by simp [hb], ?_⟩
          simp [List.all_cons, hc, hall]
      · rw [if_neg hc] at h
        simp at h

theorem takeDigitsN_complete {ds : Chars} {n : Nat} (r : Chars)
    (hlen : ds.length = n) (hall : ds.all isDigitC = true) :
    takeDigitsN n (ds ++ r) = some (ds, r) := by
  induction ds generalizing n with
  | nil => rw [← hlen]; rfl
  | cons c cs ih =>
    rw [← hlen]
    simp only [List.length_cons, List.cons_append, takeDigitsN, List.append_eq]
    simp only [List.all_cons, Bool.and_eq_true] at hall
    rw [if_pos hall.1, ih rfl hall.2]
    rfl

theorem dropSpaces_append_spaces {w r : Chars} (hw : w.all isSpaceC = true) :
    dropSpaces (w ++ r) = dropSpaces r := by
  induction w with
  | nil => rfl
  | cons c cs ih =>
    simp only [List.all_cons, Bool.and_eq_true] at hw
    simp only [List.cons_append, dropSpaces, List.dropWhile_cons, hw.1, if_true]
    exact ih hw.2

theorem dropSpaces_cons_not_space {c : Char} {r : Chars} (hc : isSpaceC c = false) :
    dropSpaces (c :: r) = c :: r := by
  simp only [dropSpaces, List.dropWhile_cons, hc]
  rfl

theorem dropSpaces_decomp (cs : Chars) :
    ∃ w, cs = w ++ dropSpaces cs ∧ w.all isSpaceC = true := by
  refine ⟨cs.takeWhile isSpaceC, (List.takeWhile_append_dropWhile isSpaceC cs).symm, ?_⟩
  rw [List.all_eq_true]
  exact fun c hc => List.mem_takeWhile_imp hc

theorem matchAMPM_sound {cs r : Chars} {a b : Char}
    (h : matchAMPM cs = some ((a, b), r)) :
    cs = a :: b :: r ∧ goodMer a b = true := by
  match cs with
  | [] => simp [matchAMPM] at h
  | [c] => simp [matchAMPM] at h
  | c0 :: c1 :: cr =>
    simp only [matchAMPM] at h
    by_cases hc : ((c0 = 'A' || c0 = 'a' || c0 = 'P' || c0 = 'p') && (c1 = 'M' || c1 = 'm')) = true
    · rw [if_pos hc] at h
      simp only [Option.some.injEq, Prod.mk.injEq] at h
      obtain ⟨⟨ha, hb⟩, hr⟩ := h
      subst ha; subst hb; subst hr
      refine ⟨rfl, ?_⟩
      simp only [goodMer]
      simp only [Bool.and_eq_true, Bool.or_eq_true, decide_eq_true_eq] at hc ⊢
      tauto
    · rw [if_neg hc] at h
      simp at h

theorem matchAMPM_complete {a b : Char} (r : Chars) (h : goodMer a b = true) :
    matchAMPM (a :: b :: r) = some ((a, b), r) := by
  simp only [matchAMPM]
  rw [if_pos]
  simp only [goodMer, Bool.and_eq_true, Bool.or_eq_true, decide_eq_true_eq] at h ⊢
  tauto

theorem mer_not_space {a b : Char} (h : goodMer a b = true) : isSpaceC a = false := by
  simp only [goodMer, Bool.and_eq_true, Bool.or_eq_true, decide_eq_true_eq] at h
  rcases h.1 with ((h' | h') | h') | h' <;> subst h' <;> rfl

theorem mer_not_digit {a b : Char} (h : goodMer a b = true) : isDigitC a = false := by
  simp only [goodMer, Bool.and_eq_true, Bool.or_eq_true, decide_eq_true_eq] at h
  rcases h.1 with ((h' | h') | h') | h' <;> subst h' <;> rfl

theorem mer_ne_colon {a b : Char} (h : goodMer a b = true) : ¬(a = ':') := by
  simp only [goodMer, Bool.and_eq_true, Bool.or_eq_true, decide_eq_true_eq] at h
  rcases h.1 with ((h' | h') | h') | h' <;> subst h' <;> decide

theorem space_not_digit {c : Char} (h : isSpaceC c = true) : isDigitC c = false := by
  simp only [isSpaceC, Bool.or_eq_true, decide_eq_true_eq] at h
  simp only [isDigitC]
  rcases h with ((((h' | h') | h') | h') | h') | h' <;> rw [h'] <;> rfl

theorem space_ne_colon {c : Char} (h : isSpaceC c = true) : ¬(c = ':') := by
  intro hc
  subst hc
  exact absurd h (by decide)

theorem digit_not_space {c : Char} (h : isDigitC c = true) : isSpaceC c = false := by
  cases hsp : isSpaceC c with
  | false => rfl
  | true => rw [space_not_digit hsp] at h; exact absurd h (by simp)

theorem digit_ne_colon {c : Char} (h : isDigitC c = true) : ¬(c = ':') := by
  intro hc
  subst hc
  simp [isDigitC] at h

theorem goodDigits_cases {d : Chars} (h : goodDigits d = true) :
    (∃ x, d = [x] ∧ isDigitC x = true) ∨
    (∃ x y, d = [x, y] ∧ isDigitC x = true ∧ isDigitC y = true) := by
  simp only [goodDigits, Bool.and_eq_true, Bool.or_eq_true, decide_eq_true_eq] at h
  obtain ⟨hlen, hall⟩ := h
  rcases hlen with h1 | h2
  · match d, h1 with
    | [x], _ =>
      simp only [List.all_cons, List.all_nil, Bool.and_true] at hall
      exact Or.inl ⟨x, rfl, hall⟩
  · match d, h2 with
    | [x, y], _ =>
      simp only [List.all_cons, List.all_nil, Bool.and_true, Bool.and_eq_true] at hall
      exact Or.inr ⟨x, y, rfl, hall.1, hall.2⟩

theorem goodMM_some_cases {mm : Chars} (h : goodMM (some mm) = true) :
    ∃ u v, mm = [u, v] ∧ isDigitC u = true ∧ isDigitC v = true := by
  simp only [goodMM, Bool.and_eq_true, decide_eq_true_eq] at h
  obtain ⟨hlen, hall⟩ := h
  match mm, hlen with
  | [u, v], _ =>
    simp only [List.all_cons, List.all_nil, Bool.and_true, Bool.and_eq_true] at hall
    exact ⟨u, v, rfl, hall.1, hall.2⟩

theorem takeDigitsN_pos_none {n : Nat} {suf : Chars} (hn : n ≠ 0)
    (hsufd : ∀ c, suf.head? = some c → isDigitC c = false) :
    takeDigitsN n suf = none := by
  match n, hn with
  | k + 1, _ =>
    cases suf with
    | nil => rfl
    | cons c r => simp [takeDigitsN, hsufd c rfl]

theorem altTok_false_sound {n : Nat} {cs g r : Chars}
    (h : altTok n false cs = some (g, r)) :
    g.length = n ∧ g.all isDigitC = true ∧ cs = g ++ r := by
  simp only [altTok, Bool.false_eq_true, if_false] at h
  cases htd : takeDigitsN n cs with
  | none => rw [htd] at h; simp at h
  | some p =>
    obtain ⟨p1, p2⟩ := p
    rw [htd] at h
    simp only [Option.some_bind, Option.some.injEq, Prod.mk.injEq] at h
    obtain ⟨h1, h2⟩ := h
    obtain ⟨ha, hb, hc⟩ := takeDigitsN_sound htd
    subst h1; subst h2
    exact ⟨hb, hc, ha⟩

theorem altTok_true_sound {n : Nat} {cs g r : Chars}
    (h : altTok n true cs = some (g, r)) :
    ∃ ds mm, g = ds ++ ':' :: mm ∧ ds.length = n ∧ ds.all isDigitC = true ∧
      mm.length = 2 ∧ mm.all isDigitC = true ∧ cs = g ++ r := by
  simp only [altTok, if_true] at h
  cases htd : takeDigitsN n cs with
  | none => rw [htd] at h; simp at h
  | some p =>
    obtain ⟨ds, r0⟩ := p
    rw [htd] at h
    simp only [Option.some_bind] at h
    by_cases hcol : r0.head? = some ':'
    · rw [if_pos hcol] at h
      cases htm : takeDigitsN 2 r0.tail with
      | none => rw [htm] at h; simp at h
      | some q =>
        obtain ⟨mm, r2⟩ := q
        rw [htm] at h
        simp only [Option.map_some', Option.some.injEq, Prod.mk.injEq] at h
        obtain ⟨h1, h2⟩ := h
        obtain ⟨ha, hb, hc⟩ := takeDigitsN_sound htd
        obtain ⟨ha', hb', hc'⟩ := takeDigitsN_sound htm
        have hr0 : r0 = ':' :: r0.tail := by
          cases r0 with
          | nil => simp at hcol
          | cons c cr =>
            simp only [List.head?_cons, Option.some.injEq] at hcol
            rw [hcol]
            rfl
        subst h1; subst h2
        refine ⟨ds, mm, rfl, hb, hc, hb', hc', ?_⟩
        rw [ha, hr0, ha']
        simp
    · rw [if_neg hcol] at h
      simp at h

theorem timeTokAlts_mem {cs : Chars} {g r : Chars} (h : (g, r) ∈ timeTokAlts cs) :
    ∃ d m, goodDigits d = true ∧ goodMM m = true ∧ g = timeChars d m ∧ cs = g ++ r := by
  simp only [timeTokAlts, List.mem_append, Option.mem_toList, Option.mem_def] at h
  rcases h with ((h | h) | h) | h
  · obtain ⟨ds, mm, hg, hl, hd, hl2, hm, hcs⟩ := altTok_true_sound h
    refine ⟨ds, some mm, ?_, ?_, by rw [hg]; rfl, hcs⟩
    · simp [goodDigits, hl, hd]
    · simp [goodMM, hl2, hm]
  · obtain ⟨hl, hd, hcs⟩ := altTok_false_sound h
    refine ⟨g, none, ?_, rfl, by simp [timeChars], hcs⟩
    simp [goodDigits, hl, hd]
  · obtain ⟨ds, mm, hg, hl, hd, hl2, hm, hcs⟩ := altTok_true_sound h
    refine ⟨ds, some mm, ?_, ?_, by rw [hg]; rfl, hcs⟩
    · simp [goodDigits, hl, hd]
    · simp [goodMM, hl2, hm]
  · obtain ⟨hl, hd, hcs⟩ := altTok_false_sound h
    refine ⟨g, none, ?_, rfl, by simp [timeChars], hcs⟩
    simp [goodDigits, hl, hd]

/-- Backtracking evaluation of the `\d{1,2}(?::\d{2})?` candidates on a
well-shaped prefix: when the input is a valid time token followed by a
suffix that opens with neither a digit nor a colon, the regex engine's
first fully matching candidate captures exactly the token.  All earlier
candidates fail locally, so `firstSome` reaches the token's candidate,
whatever continuation `F` runs after it. -/
theorem firstSome_timeTokAlts {β : Type} {F : Chars × Chars → Option β}
    {d : Chars} {m : Option Chars} {suf : Chars}
    (hd : goodDigits d = true) (hm : goodMM m = true)
    (hsufd : ∀ c, suf.head? = some c → isDigitC c = false)
    (hsufc : ∀ c, suf.head? = some c → ¬(c = ':'))
    {v : β} (hF : F (timeChars d m, suf) = some v) :
    firstSome F (timeTokAlts (timeChars d m ++ suf)) = some v := by
  have hhc : ¬(suf.head? = some ':') := by
    cases suf with
    | nil => simp
    | cons c r =>
      simp only [List.head?_cons, Option.some.injEq]
      exact hsufc c rfl
  have htd1 : takeDigitsN 1 suf = none := takeDigitsN_pos_none (by decide) hsufd
  rcases goodDigits_cases hd with ⟨x, rfl, hx⟩ | ⟨x, y, rfl, hx, hy⟩
  · cases m with
    | none =>
      have e2c : altTok 2 true (timeChars [x] none ++ suf) = none := by
        simp [altTok, takeDigitsN, timeChars, hx, htd1]
      have e2 : altTok 2 false (timeChars [x] none ++ suf) = none := by
        simp [altTok, takeDigitsN, timeChars, hx, htd1]
      have e1c : altTok 1 true (timeChars [x] none ++ suf) = none := by
        simp [altTok, takeDigitsN, timeChars, hx, hhc]
      have e1 : altTok 1 false (timeChars [x] none ++ suf) =
          some (timeChars [x] none, suf) := by
        simp [altTok, takeDigitsN, timeChars, hx]
      rw [timeTokAlts, e2c, e2, e1c, e1]
      exact firstSome_cons_some hF
    | some mm =>
      obtain ⟨u, w, rfl, hu, hw⟩ := goodMM_some_cases hm
      have hnc : isDigitC ':' = false := by decide
      have e2c : altTok 2 true (timeChars [x] (some [u, w]) ++ suf) = none := by
        simp [altTok, takeDigitsN, timeChars, hx, hnc]
      have e2 : altTok 2 false (timeChars [x] (some [u, w]) ++ suf) = none := by
        simp [altTok, takeDigitsN, timeChars, hx, hnc]
      have e1c : altTok 1 true (timeChars [x] (some [u, w]) ++ suf) =
          some (timeChars [x] (some [u, w]), suf) := by
        simp [altTok, takeDigitsN, timeChars, hx, hu, hw]
      rw [timeTokAlts, e2c, e2, e1c]
      exact firstSome_cons_some hF
  · cases m with
    | none =>
      have e2c : altTok 2 true (timeChars [x, y] none ++ suf) = none := by
        simp [altTok, takeDigitsN, timeChars, hx, hy, hhc]
      have e2 : altTok 2 false (timeChars [x, y] none ++ suf) =
          some (timeChars [x, y] none, suf) := by
        simp [altTok, takeDigitsN, timeChars, hx, hy]
      rw [timeTokAlts, e2c, e2]
      exact firstSome_cons_some hF
    | some mm =>
      obtain ⟨u, w, rfl, hu, hw⟩ := goodMM_some_cases hm
      have e2c : altTok 2 true (timeChars [x, y] (some [u, w]) ++ suf) =
          some (timeChars [x, y] (some [u, w]), suf) := by
        simp [altTok, takeDigitsN, timeChars, hx, hy, hu, hw]
      rw [timeTokAlts, e2c]
      exact firstSome_cons_some hF

theorem suffix_head_not_digit {w rest : Chars} {a : Char} (hw : w.all isSpaceC = true)
    (ha : isDigitC a = false) :
    ∀ c, (w ++ a :: rest).head? = some c → isDigitC c = false := by
  intro c hc
  cases w with
  | nil =>
    simp only [List.nil_append, List.head?_cons, Option.some.injEq] at hc
    rw [← hc]; exact ha
  | cons c0 w' =>
    simp only [List.cons_append, List.head?_cons, Option.some.injEq] at hc
    simp only [List.all_cons, Bool.and_eq_true] at hw
    rw [← hc]; exact space_not_digit hw.1

theorem suffix_head_not_colon {w rest : Chars} {a : Char} (hw : w.all isSpaceC = true)
    (ha : ¬(a = ':')) :
    ∀ c, (w ++ a :: rest).head? = some c → ¬(c = ':') := by
  intro c hc
  cases w with
  | nil =>
    simp only [List.nil_append, List.head?_cons, Option.some.injEq] at hc
    rw [← hc]; exact ha
  | cons c0 w' =>
    simp only [List.cons_append, List.head?_cons, Option.some.injEq] at hc
    simp only [List.all_cons, Bool.and_eq_true] at hw
    rw [← hc]; exact space_ne_colon hw.1

theorem sep_not_space {c : Char} (h : (c = '-' || c = '–') = true) :
    isSpaceC c = false := by
  rcases Bool.or_eq_true_iff.mp h with h' | h' <;>
    rw [decide_eq_true_eq] at h' <;> subst h' <;> rfl

theorem dropSpaces_timeChars {d : Chars} {m : Option Chars} (hd : goodDigits d = true)
    (y : Chars) : dropSpaces (timeChars d m ++ y) = timeChars d m ++ y := by
  rcases goodDigits_cases hd with ⟨x, rfl, hx⟩ | ⟨x, x2, rfl, hx, _⟩ <;>
    exact dropSpaces_cons_not_space (digit_not_space hx)

theorem matchAfterSep_render {d : Chars} {m : Option Chars} {w rest : Chars} {a b : Char}
    (hd : goodDigits d = true) (hm : goodMM m = true) (hw : w.all isSpaceC = true)
    (hab : goodMer a b = true) :
    matchAfterSep (timeChars d m ++ (w ++ (a :: b :: rest))) =
      some (timeChars d m, (a, b)) := by
  unfold matchAfterSep
  apply firstSome_timeTokAlts hd hm
    (suffix_head_not_digit hw (mer_not_digit hab))
    (suffix_head_not_colon hw (mer_ne_colon hab))
  show (matchAMPM (dropSpaces (w ++ (a :: b :: rest)))).map _ = _
  rw [dropSpaces_append_spaces hw, dropSpaces_cons_not_space (mer_not_space hab),
    matchAMPM_complete _ hab]
  rfl

theorem TRShape.ok_parts {t : TRShape} (ht : t.ok = true) :
    goodDigits t.d1 = true ∧ goodMM t.m1 = true ∧ t.w1.all isSpaceC = true ∧
    goodMer t.a1 t.b1 = true ∧ t.w2.all isSpaceC = true ∧
    (t.sep = '-' || t.sep = '–') = true ∧ t.w3.all isSpaceC = true ∧
    goodDigits t.d2 = true ∧ goodMM t.m2 = true ∧ t.w4.all isSpaceC = true ∧
    goodMer t.a2 t.b2 = true := by
  simp only [TRShape.ok, Bool.and_eq_true] at ht
  tauto

/-- Deterministic evaluation of the full pattern on a well-formed
shape: the matcher returns exactly the shape's four groups. -/
theorem matchTR_render (t : TRShape) (ht : t.ok = true) :
    matchTR t.render =
      some (timeChars t.d1 t.m1, (t.a1, t.b1), timeChars t.d2 t.m2, (t.a2, t.b2)) := by
  obtain ⟨hd1, hm1, hw1, hmer1, hw2, hsep, hw3, hd2, hm2, hw4, hmer2⟩ := TRShape.ok_parts ht
  unfold matchTR TRShape.render
  apply firstSome_timeTokAlts hd1 hm1
    (suffix_head_not_digit hw1 (mer_not_digit hmer1))
    (suffix_head_not_colon hw1 (mer_ne_colon hmer1))
  show (matchAMPM (dropSpaces (t.w1 ++ (t.a1 :: t.b1 :: _)))).bind _ = _
  rw [dropSpaces_append_spaces hw1, dropSpaces_cons_not_space (mer_not_space hmer1),
    matchAMPM_complete _ hmer1]
  simp only [Option.some_bind]
  rw [dropSpaces_append_spaces hw2, dropSpaces_cons_not_space (sep_not_space hsep)]
  simp only [List.head?_cons, List.tail_cons, Option.some.injEq]
  rw [if_pos (by simpa using hsep)]
  rw [dropSpaces_append_spaces hw3, dropSpaces_timeChars hd2,
    matchAfterSep_render hd2 hm2 hw4 hmer2]
  rfl

theorem matchAfterSep_shape {cs g : Chars} {a b : Char}
    (h : matchAfterSep cs = some (g, (a, b))) :
    ∃ d m w rest, goodDigits d = true ∧ goodMM m = true ∧ w.all isSpaceC = true ∧
      goodMer a b = true ∧ g = timeChars d m ∧
      cs = timeChars d m ++ (w ++ (a :: b :: rest)) := by
  unfold matchAfterSep at h
  obtain ⟨⟨g0, r0⟩, hmem, hf⟩ := firstSome_exists h
  cases hAm : matchAMPM (dropSpaces r0) with
  | none => rw [hAm] at hf; simp at hf
  | some q =>
    obtain ⟨⟨a', b'⟩, r2⟩ := q
    rw [hAm] at hf
    simp only [Option.map_some', Option.some.injEq, Prod.mk.injEq] at hf
    obtain ⟨hg, ha, hb⟩ := hf
    obtain ⟨d, m, hd, hm, hgd, hcs⟩ := timeTokAlts_mem hmem
    obtain ⟨hps, hmer⟩ := matchAMPM_sound hAm
    obtain ⟨w, hw1, hw2⟩ := dropSpaces_decomp r0
    subst ha; subst hb; subst hg; subst hgd
    refine ⟨d, m, w, r2, hd, hm, hw2, hmer, rfl, ?_⟩
    rw [hcs, hw1, hps]

theorem matchTR_shape {cs g1 g3 : Chars} {a1 b1 a2 b2 : Char}
    (h : matchTR cs = some (g1, (a1, b1), g3, (a2, b2))) :
    ∃ t : TRShape, t.ok = true ∧ cs = t.render ∧
      g1 = timeChars t.d1 t.m1 ∧ g3 = timeChars t.d2 t.m2 ∧
      a1 = t.a1 ∧ b1 = t.b1 ∧ a2 = t.a2 ∧ b2 = t.b2 := by
  unfold matchTR at h
  obtain ⟨⟨g0, r0⟩, hmem, hf⟩ := firstSome_exists h
  cases hAm : matchAMPM (dropSpaces r0) with
  | none => rw [hAm] at hf; simp at hf
  | some q =>
    obtain ⟨⟨a1', b1'⟩, r1⟩ := q
    rw [hAm] at hf
    simp only [Option.some_bind] at hf
    by_cases hif : ((dropSpaces r1).head? = some '-' ∨ (dropSpaces r1).head? = some '–')
    · rw [if_pos (by simpa using hif)] at hf
      cases hAs : matchAfterSep (dropSpaces (dropSpaces r1).tail) with
      | none => rw [hAs] at hf; simp at hf
      | some q2 =>
        obtain ⟨g3', a2', b2'⟩ := q2
        rw [hAs] at hf
        simp only [Option.map_some', Option.some.injEq, Prod.mk.injEq] at hf
        obtain ⟨hg1, ⟨ha1, hb1⟩, hg3, ha2, hb2⟩ := hf
        cases hdr : dropSpaces r1 with
        | nil => rw [hdr] at hif; simp at hif
        | cons sep r3 =>
          rw [hdr] at hif
          simp only [List.head?_cons, Option.some.injEq] at hif
          rw [hdr] at hAs
          simp only [List.tail_cons] at hAs
          obtain ⟨d2, m2, w4, rest, hd2, hm2, hw4, hmer2, hg3d, hr3⟩ :=
            matchAfterSep_shape hAs
          obtain ⟨d1, m1, hd1, hm1, hg1d, hcs⟩ := timeTokAlts_mem hmem
          obtain ⟨hps1, hmer1⟩ := matchAMPM_sound hAm
          obtain ⟨w1, hw1a, hw1b⟩ := dropSpaces_decomp r0
          obtain ⟨w2, hw2a, hw2b⟩ := dropSpaces_decomp r1
          obtain ⟨w3, hw3a, hw3b⟩ := dropSpaces_decomp r3
          subst hg1; subst ha1; subst hb1; subst hg3; subst ha2; subst hb2
          subst hg1d; subst hg3d
          refine ⟨⟨d1, m1, w1, a1', b1', w2, sep, w3, d2, m2, w4, a2', b2', rest⟩,
            ?_, ?_, rfl, rfl, rfl, rfl, rfl, rfl⟩
          · simp only [TRShape.ok, Bool.and_eq_true]
            refine ⟨⟨⟨⟨⟨⟨⟨⟨⟨⟨hd1, hm1⟩, hw1b⟩, hmer1⟩, hw2b⟩, ?_⟩, hw3b⟩, hd2⟩, hm2⟩, hw4⟩, hmer2⟩
            simp only [Bool.or_eq_true, decide_eq_true_eq]
            exact hif
          · show cs = timeChars d1 m1 ++ (w1 ++ (a1' :: b1' :: (w2 ++ (sep :: (w3 ++
              (timeChars d2 m2 ++ (w4 ++ (a2' :: b2' :: rest))))))))
            rw [hcs, hw1a, hps1, hw2a, hdr, hw3a, hr3]
    · rw [if_neg (by simpa using hif)] at hf
      simp at hf

theorem digits_no_colon {ds : Chars} (hd : ds.all isDigitC = true) :
    ds.contains ':' = false := by
  rw [Bool.eq_false_iff]
  intro hcon
  rw [List.all_eq_true] at hd
  have hmem : ':' ∈ ds := by simpa using hcon
  exact absurd rfl (digit_ne_colon (hd _ hmem))

theorem contains_colon_append (d mm : Chars) : (d ++ ':' :: mm).contains ':' = true := by
  simp

theorem splitOnColon_ne_nil (l : Chars) : splitOnColon l ≠ [] := by
  cases l with
  | nil => simp [splitOnColon]
  | cons c cs =>
    simp only [splitOnColon]
    by_cases hc : c = ':'
    · rw [if_pos hc]; simp
    · rw [if_neg hc]
      cases h : splitOnColon cs with
      | nil => simp
      | cons p ps => simp

theorem splitOnColon_no_colon {l : Chars} (h : ∀ c ∈ l, ¬(c = ':')) :
    splitOnColon l = [l] := by
  induction l with
  | nil => rfl
  | cons c cs ih =>
    simp only [splitOnColon, if_neg (h c (List.mem_cons_self c cs))]
    rw [ih (fun x hx => h x (List.mem_cons_of_mem c hx))]

theorem splitOnColon_append {d : Chars} (mm : Chars) (h : ∀ c ∈ d, ¬(c = ':')) :
    splitOnColon (d ++ ':' :: mm) = d :: splitOnColon mm := by
  induction d with
  | nil => simp [splitOnColon]
  | cons c cs ih =>
    rw [List.cons_append]
    simp only [splitOnColon, if_neg (h c (List.mem_cons_self c cs))]
    rw [ih (fun x hx => h x (List.mem_cons_of_mem c hx))]

/-- On a well-formed time token, `_parse_hm` splits the text back into
the digit values and then applies the two meridiem adjustments. -/
theorem parse_hm_timeChars {d : Chars} {m : Option Chars} (a b : Char)
    (hd : d.all isDigitC = true) (hm : goodMM m = true) :
    _parse_hm (timeChars d m) a b = hmAdjust (natOfDigits d) (mmVal m) a b := by
  have hnc : ∀ c ∈ d, ¬(c = ':') := by
    rw [List.all_eq_true] at hd
    exact fun c hc => digit_ne_colon (hd c hc)
  cases m with
  | none =>
    show _parse_hm (d ++ []) a b = _
    rw [List.append_nil]
    unfold _parse_hm hmAdjust
    rw [digits_no_colon hd]
    simp [mmVal]
  | some mm =>
    have hmmd : mm.all isDigitC = true := by
      simp only [goodMM, Bool.and_eq_true] at hm
      exact hm.2
    have hmmnc : ∀ c ∈ mm, ¬(c = ':') := by
      rw [List.all_eq_true] at hmmd
      exact fun c hc => digit_ne_colon (hmmd c hc)
    show _parse_hm (d ++ ':' :: mm) a b = _
    unfold _parse_hm hmAdjust
    rw [contains_colon_append]
    simp only [if_true]
    rw [splitOnColon_append mm hnc, splitOnColon_no_colon hmmnc]
    rfl

theorem hmAdjust_am_le {h mn : Nat} {a b : Char} (ha : a = 'A' ∨ a = 'a')
    (hb : b = 'M' ∨ b = 'm') (hh : h ≤ 12) : (hmAdjust h mn a b).1 ≤ 11 := by
  have hpm : merIsPM a b = false := by
    rcases ha with rfl | rfl <;> rfl
  have ham : merIsAM a b = true := by
    rcases ha with rfl | rfl <;> rcases hb with rfl | rfl <;> rfl
  unfold hmAdjust
  rw [hpm]
  simp only [Bool.false_and, Bool.false_eq_true, if_false, ham, Bool.true_and]
  by_cases h12 : h = 12
  · rw [if_pos (by simpa using h12)]
    omega
  · rw [if_neg (by simpa using h12)]
    omega

theorem hmAdjust_pm_ge {h mn : Nat} {a b : Char} (ha : a = 'P' ∨ a = 'p')
    (hb : b = 'M' ∨ b = 'm') : 12 ≤ (hmAdjust h mn a b).1 := by
  have hpm : merIsPM a b = true := by
    rcases ha with rfl | rfl <;> rcases hb with rfl | rfl <;> rfl
  have ham : merIsAM a b = false := by
    rcases ha with rfl | rfl <;> rfl
  unfold hmAdjust
  rw [hpm, ham]
  simp only [Bool.true_and, Bool.false_and, Bool.false_eq_true, if_false]
  by_cases h12 : h = 12
  · rw [if_neg (show ¬(decide (h ≠ 12) = true) by simpa using h12)]
    omega
  · rw [if_pos (show decide (h ≠ 12) = true by simpa using h12)]
    omega

theorem hmAdjust_snd (h mn : Nat) (a b : Char) : (hmAdjust h mn a b).2 = mn := rfl

/-- C4 (amended): exact domain of `parse_time_range`, up to `re.match`
prefix semantics.  The parser succeeds exactly on truthy strings whose
stripped text *begins with* the pattern
`<time> <AM|PM> [-–] <time> <AM|PM>` (trailing characters are ignored,
as `re.match` does); every non-string input yields `None`; and the
conversion on the captured tokens follows the stated rules:
12 AM → hour 0, 12 PM → hour 12, PM hours 1–11 add 12, other AM hours
unchanged, with the minute field passed through. -/
theorem c4_parse_time_range_exact :
    (∀ s r, parse_time_range (Cell.str s) = some r →
      s ≠ [] ∧ ∃ t : TRShape, t.ok = true ∧ stripEnds s = t.render ∧
        r = (_parse_hm (timeChars t.d1 t.m1) t.a1 t.b1,
             _parse_hm (timeChars t.d2 t.m2) t.a2 t.b2))
    ∧ (∀ s (t : TRShape), t.ok = true → stripEnds s = t.render → s ≠ [] →
        (parse_time_range (Cell.str s)).isSome = true)
    ∧ (∀ v : Cell, (∀ s, v ≠ Cell.str s) → parse_time_range v = none)
    ∧ (∀ d m a b, goodDigits d = true → goodMM m = true → goodMer a b = true →
        ((natOfDigits d = 12 ∧ (a = 'A' ∨ a = 'a')) →
          (_parse_hm (timeChars d m) a b).1 = 0) ∧
        ((natOfDigits d = 12 ∧ (a = 'P' ∨ a = 'p')) →
          (_parse_hm (timeChars d m) a b).1 = 12) ∧
        ((1 ≤ natOfDigits d ∧ natOfDigits d ≤ 11 ∧ (a = 'P' ∨ a = 'p')) →
          (_parse_hm (timeChars d m) a b).1 = natOfDigits d + 12) ∧
        (((a = 'A' ∨ a = 'a') ∧ natOfDigits d ≠ 12) →
          (_parse_hm (timeChars d m) a b).1 = natOfDigits d) ∧
        (_parse_hm (timeChars d m) a b).2 = mmVal m) := by
  refine ⟨?_, ?_, ?_, ?_⟩
  · intro s r h
    have hun : parse_time_range (Cell.str s) =
        (if s = [] then none else
          (matchTR (stripEnds s)).map fun g =>
            (_parse_hm g.1 g.2.1.1 g.2.1.2, _parse_hm g.2.2.1 g.2.2.2.1 g.2.2.2.2)) := rfl
    rw [hun] at h
    by_cases hs : s = []
    · rw [if_pos hs] at h; simp at h
    · rw [if_neg hs] at h
      refine ⟨hs, ?_⟩
      cases hM : matchTR (stripEnds s) with
      | none => rw [hM] at h; simp at h
      | some q =>
        obtain ⟨g1, ⟨a1, b1⟩, g3, a2, b2⟩ := q
        rw [hM] at h
        simp only [Option.map_some', Option.some.injEq] at h
        obtain ⟨t, hok, hcs, hg1, hg3, ha1, hb1, ha2, hb2⟩ := matchTR_shape hM
        refine ⟨t, hok, hcs, ?_⟩
        rw [← h, hg1, hg3, ha1, hb1, ha2, hb2]
  · intro s t hok hstrip hs
    have hun : parse_time_range (Cell.str s) =
        (if s = [] then none else
          (matchTR (stripEnds s)).map fun g =>
            (_parse_hm g.1 g.2.1.1 g.2.1.2, _parse_hm g.2.2.1 g.2.2.2.1 g.2.2.2.2)) := rfl
    rw [hun, if_neg hs, hstrip, matchTR_render t hok]
    rfl
  · intro v hv
    cases v with
    | str s => exact absurd rfl (hv s)
    | date d => rfl
    | num n => rfl
    | empty => rfl
  · intro d m a b hd hm hab
    have hdall : d.all isDigitC = true := by
      simp only [goodDigits, Bool.and_eq_true] at hd
      exact hd.2
    have hb' : b = 'M' ∨ b = 'm' := by
      simp only [goodMer, Bool.and_eq_true, Bool.or_eq_true, decide_eq_true_eq] at hab
      tauto
    rw [parse_hm_timeChars a b hdall hm]
    refine ⟨?_, ?_, ?_, ?_, hmAdjust_snd _ _ _ _⟩
    · rintro ⟨h12, ha⟩
      have hpm : merIsPM a b = false := by rcases ha with rfl | rfl <;> rfl
      have ham : merIsAM a b = true := by
        rcases ha with rfl | rfl <;> rcases hb' with rfl | rfl <;> rfl
      unfold hmAdjust
      rw [hpm, h12]
      simp [ham]
    · rintro ⟨h12, ha⟩
      have hpm : merIsPM a b = true := by
        rcases ha with rfl | rfl <;> rcases hb' with rfl | rfl <;> rfl
      have ham : merIsAM a b = false := by rcases ha with rfl | rfl <;> rfl
      unfold hmAdjust
      rw [hpm, ham, h12]
      simp
    · rintro ⟨h1, h11, ha⟩
      have hpm : merIsPM a b = true := by
        rcases ha with rfl | rfl <;> rcases hb' with rfl | rfl <;> rfl
      have ham : merIsAM a b = false := by rcases ha with rfl | rfl <;> rfl
      unfold hmAdjust
      rw [hpm, ham]
      rw [if_pos (show (true && decide (natOfDigits d ≠ 12)) = true by
        simp only [Bool.true_and, decide_eq_true_eq]
        omega)]
      simp
    · rintro ⟨ha, h12⟩
      have hpm : merIsPM a b = false := by rcases ha with rfl | rfl <;> rfl
      have ham : merIsAM a b = true := by
        rcases ha with rfl | rfl <;> rcases hb' with rfl | rfl <;> rfl
      unfold hmAdjust
      rw [hpm, ham]
      simp only [Bool.false_and, Bool.false_eq_true, if_false, Bool.true_and]
      rw [if_neg (by simpa using h12)]

/-- Counterexample for C4 as stated: `"9 AM - 5 PMx"` is not of the
shape `<time> <AM|PM> - <time> <AM|PM>` — its last character is a stray
`x` after the final meridiem — yet `parse_time_range` succeeds, because
`re.match` only anchors the pattern at the start of the text. -/
theorem c4_counterexample :
    parse_time_range (Cell.str ("9 AM - 5 PMx").toList) = some ((9, 0), (17, 0)) ∧
    (("9 AM - 5 PMx").toList).getLast? = some 'x' := by
  exact ⟨by decide, by decide⟩

/-- Witness for C4 (amended) at the shape of `"12 AM - 12 PM"`:
the parse succeeds, and the conversion sends the 12 AM hour to 0. -/
theorem c4_parse_time_range_exact_witness :
    (parse_time_range (Cell.str ("12 AM - 12 PM").toList)).isSome = true ∧
    (_parse_hm (timeChars exShape.d1 exShape.m1) exShape.a1 exShape.b1).1 = 0 := by
  refine ⟨c4_parse_time_range_exact.2.1 (("12 AM - 12 PM").toList) exShape
    (by decide) (by decide) (by decide), ?_⟩
  exact (c4_parse_time_range_exact.2.2.2 exShape.d1 exShape.m1 exShape.a1 exShape.b1
    (by decide) (by decide) (by decide)).1 (by decide)

/-- Counterexample for C6 as stated: `"5 PM - 9 AM"` parses
successfully to ((17,0),(9,0)), whose start (1020 minutes) is not less
than its end (540 minutes) — `parse_time_range` performs no ordering
check at all. -/
theorem c6_counterexample :
    parse_time_range (Cell.str ("5 PM - 9 AM").toList) = some ((17, 0), (9, 0)) ∧
    ¬(minsOf (17, 0) < minsOf (9, 0)) := by
  exact ⟨by decide, by decide⟩

/-- C6 (amended): `parse_time_range` enforces no ordering, so
start < end holds only conditionally: for every successful parse whose
matched shape carries meridiem AM on the first time and PM on the
second, with the first hour field at most 12 and the first minute field
at most 59, the resulting range satisfies start < end in
minutes-since-midnight. -/
theorem c6_start_lt_end_conditional :
    ∀ (s : Chars) (t : TRShape) (r : (Nat × Nat) × (Nat × Nat)),
      t.ok = true → stripEnds s = t.render →
      (t.a1 = 'A' ∨ t.a1 = 'a') → (t.a2 = 'P' ∨ t.a2 = 'p') →
      natOfDigits t.d1 ≤ 12 → mmVal t.m1 ≤ 59 →
      parse_time_range (Cell.str s) = some r →
      minsOf r.1 < minsOf r.2 := by
  intro s t r hok hstrip ha1 ha2 hh1 hm1 hp
  obtain ⟨hd1, hmm1, hw1, hmer1, hw2, hsep, hw3, hd2, hmm2, hw4, hmer2⟩ :=
    TRShape.ok_parts hok
  have hs : s ≠ [] := by
    intro hnil
    rw [hnil] at hp
    simp [parse_time_range] at hp
  have hun : parse_time_range (Cell.str s) =
      (if s = [] then none else
        (matchTR (stripEnds s)).map fun g =>
          (_parse_hm g.1 g.2.1.1 g.2.1.2, _parse_hm g.2.2.1 g.2.2.2.1 g.2.2.2.2)) := rfl
  rw [hun, if_neg hs, hstrip, matchTR_render t hok] at hp
  simp only [Option.map_some', Option.some.injEq] at hp
  have hd1all : t.d1.all isDigitC = true := by
    simp only [goodDigits, Bool.and_eq_true] at hd1
    exact hd1.2
  have hd2all : t.d2.all isDigitC = true := by
    simp only [goodDigits, Bool.and_eq_true] at hd2
    exact hd2.2
  have hb1 : t.b1 = 'M' ∨ t.b1 = 'm' := by
    simp only [goodMer, Bool.and_eq_true, Bool.or_eq_true, decide_eq_true_eq] at hmer1
    tauto
  have hb2 : t.b2 = 'M' ∨ t.b2 = 'm' := by
    simp only [goodMer, Bool.and_eq_true, Bool.or_eq_true, decide_eq_true_eq] at hmer2
    tauto
  rw [← hp]
  simp only [parse_hm_timeChars t.a1 t.b1 hd1all hmm1,
    parse_hm_timeChars t.a2 t.b2 hd2all hmm2]
  have hstart : (hmAdjust (natOfDigits t.d1) (mmVal t.m1) t.a1 t.b1).1 ≤ 11 :=
    hmAdjust_am_le ha1 hb1 hh1
  have hend : 12 ≤ (hmAdjust (natOfDigits t.d2) (mmVal t.m2) t.a2 t.b2).1 :=
    hmAdjust_pm_ge ha2 hb2
  have hsnd1 : (hmAdjust (natOfDigits t.d1) (mmVal t.m1) t.a1 t.b1).2 = mmVal t.m1 :=
    hmAdjust_snd _ _ _ _
  unfold minsOf
  rw [hsnd1]
  omega

/-- Witness for C6 (amended) at `"12 AM - 12 PM"`: the parsed range
((0,0),(12,0)) satisfies 0 < 720. -/
theorem c6_start_lt_end_conditional_witness : minsOf (0, 0) < minsOf (12, 0) := by
  exact c6_start_lt_end_conditional (("12 AM - 12 PM").toList) exShape ((0, 0), (12, 0))
    (by decide) (by decide) (Or.inl rfl) (Or.inl rfl) (by decide) (by decide) (by decide)
